import Mathlib

/-!
Verification development for the `hnsw` TypeScript package (HNSW approximate
nearest neighbour index).  The definitions below are a shallow embedding of
`src/main.ts` (the `HNSW` class), `src/node.ts` (`Node`), `src/heap.ts`
(`BinaryHeap`) and `src/similarity.ts`.

Modelling conventions:
* Vectors are lists of rationals (`Vec`).  The reference stores
  `Float32Array | number[]`; the idealisation to exact arithmetic is the
  usual one for verifying numeric control flow.
* Similarity scores live in an arbitrary linear order `S`; every graph
  operation is parameterised by the score function
  `sim : Vec → Vec → S`, mirroring the `similarityFunction` field of the
  class. Euclidean similarity `1 / (1 + ‖a − b‖)` is represented exactly by
  the squared distance with the reversed order (`EuclidSim`); a bridging
  lemma (`euclid_repr_faithful`) shows that this order agrees with the real
  number `1 / (1 + Real.sqrt sqd)` computed by the source.
* The JavaScript `Map` is an insertion-ordered association list; `Map.set`
  overwrites in place, `Map.get` returns the first (unique) match.
* Mutation of a node's adjacency through object aliases becomes an update of
  the association list keyed by the node id (`modifyNb`); `id`, `vector`
  and `level` are immutable in the source, so passing `Node` values around
  is faithful wherever only those fields are read.
* `Math.random()` draws are exposed as explicit parameters (the level given
  to `addPoint`, the value `r` given to `selectLevel`).
* `while` loops are modelled with explicit fuel; at every call site the fuel
  passed is a proven-sufficient bound justified in a comment, so the fuelled
  function agrees with the source loop.
-/

namespace Hnsw

/-- Vectors: finite sequences of (exact) reals. -/
abbrev Vec := List ℚ

/-- Squared euclidean distance; the source computes
`sum += (a[i] - b[i]) ** 2` over the indices of `a` (both arguments always
have the same dimension at call sites). -/
def sqDist (a b : Vec) : ℚ :=
  ((a.zip b).map fun p => (p.1 - p.2) ^ 2).sum

/-- Exact representation of the euclidean similarity score
`1 / (1 + Math.sqrt (sqDist a b))` from `similarity.ts`: the value is
determined by the squared distance `sqd`, and since `x ↦ 1 / (1 + √x)` is
strictly antitone, comparing two scores is comparing their squared
distances in the reversed order (see `euclid_repr_faithful`). -/
structure EuclidSim where
  sqd : ℚ
deriving DecidableEq

instance : LinearOrder EuclidSim where
  le a b := b.sqd ≤ a.sqd
  lt a b := b.sqd < a.sqd
  le_refl a := le_refl a.sqd
  le_trans a b c hab hbc := by
    change c.sqd ≤ a.sqd
    exact le_trans (hbc : c.sqd ≤ b.sqd) (hab : b.sqd ≤ a.sqd)
  le_antisymm a b hab hba := by
    cases a; cases b
    simp only [EuclidSim.mk.injEq]
    exact le_antisymm hba hab
  le_total a b := le_total b.sqd a.sqd
  lt_iff_le_not_le a b := by
    change b.sqd < a.sqd ↔ b.sqd ≤ a.sqd ∧ ¬ a.sqd ≤ b.sqd
    exact lt_iff_le_not_le
  decidableLE a b := inferInstanceAs (Decidable (b.sqd ≤ a.sqd))
  decidableLT a b := inferInstanceAs (Decidable (b.sqd < a.sqd))
  decidableEq a b := inferInstanceAs (Decidable (a = b))

/-- `euclideanSimilarity` from `similarity.ts`, in the exact representation. -/
def euclideanSimilarity (a b : Vec) : EuclidSim := ⟨sqDist a b⟩

/-- The representation is faithful: the order on `EuclidSim` coincides with
the order of the real values `1 / (1 + √sqd)` the source computes
(squared distances are nonnegative, as produced by `sqDist`). -/
theorem euclid_repr_faithful (x y : EuclidSim) (hx : 0 ≤ x.sqd) (hy : 0 ≤ y.sqd) :
    x ≤ y ↔ (1 : ℝ) / (1 + Real.sqrt x.sqd) ≤ 1 / (1 + Real.sqrt y.sqd) := by
  have hx' : (0 : ℝ) ≤ (x.sqd : ℝ) := by exact_mod_cast hx
  have hy' : (0 : ℝ) ≤ (y.sqd : ℝ) := by exact_mod_cast hy
  have h1 : (0 : ℝ) < 1 + Real.sqrt x.sqd :=
    lt_of_lt_of_le one_pos (le_add_of_nonneg_right (Real.sqrt_nonneg _))
  have h2 : (0 : ℝ) < 1 + Real.sqrt y.sqd :=
    lt_of_lt_of_le one_pos (le_add_of_nonneg_right (Real.sqrt_nonneg _))
  rw [div_le_div_iff₀ h1 h2, one_mul, one_mul, add_le_add_iff_left]
  constructor
  · intro h
    have h' : (y.sqd : ℝ) ≤ (x.sqd : ℝ) := by exact_mod_cast (h : y.sqd ≤ x.sqd)
    exact Real.sqrt_le_sqrt h'
  · intro h
    have h' : (y.sqd : ℝ) ≤ (x.sqd : ℝ) :=
      (Real.sqrt_le_sqrt_iff hx').mp h
    show y.sqd ≤ x.sqd
    exact_mod_cast h'

/-- `sqDist` is nonnegative. -/
theorem sqDist_nonneg (a b : Vec) : 0 ≤ sqDist a b := by
  unfold sqDist
  induction (a.zip b) with
  | nil => simp
  | cons p l ih =>
    simp only [List.map_cons, List.sum_cons]
    exact add_nonneg (sq_nonneg _) ih

/-- `Node` from `node.ts`: immutable `id`, `vector`, `level`; mutable
per-layer adjacency lists. -/
structure Node where
  id : ℤ
  vector : Vec
  level : ℕ
  neighbors : List (List ℤ)
deriving DecidableEq

/-- The `Node` constructor: `neighbors = Array.from({length: level+1}, () => [])`. -/
def Node.make (id : ℤ) (vector : Vec) (level : ℕ) : Node :=
  ⟨id, vector, level, List.replicate (level + 1) []⟩

/-- The `Metric` union type. -/
inductive Metric where
  | cosine
  | euclidean
deriving DecidableEq

/-- The `HNSW` class state.  `probs` is omitted: it is a pure function of `M`
fixed at construction and read only by `selectLevel`, whose random draw is
modelled separately (`selectLevel` below takes `probs` and the uniform draw
as arguments).  `similarityFunction` is likewise determined by `metric`; the
operations take it as the explicit parameter `sim`. -/
structure HNSW where
  metric : Metric
  d : Option ℕ
  M : ℕ
  efConstruction : ℕ
  efSearch : ℕ
  levelMax : ℤ
  entryPointId : ℤ
  nodes : List (ℤ × Node)
deriving DecidableEq

/-- The `HNSW` constructor (argument order as in the source; callers supply
the defaults `M = 16`, `efConstruction = 200`, `d = null`,
`metric = 'cosine'`, `efSearch = 50` where the source does). -/
def HNSW.new (M efConstruction : ℕ) (d : Option ℕ) (metric : Metric)
    (efSearch : ℕ) : HNSW :=
  { metric := metric, d := d, M := M, efConstruction := efConstruction,
    efSearch := efSearch, entryPointId := -1, nodes := [], levelMax := -1 }

/-! ### JavaScript `Map` as an insertion-ordered association list -/

/-- `Map.get`: first (unique) entry with the key. -/
def mapGet (m : List (ℤ × Node)) (k : ℤ) : Option Node :=
  (m.find? fun e => e.1 == k).map (·.2)

/-- `Map.has`. -/
def mapHas (m : List (ℤ × Node)) (k : ℤ) : Bool :=
  (m.find? fun e => e.1 == k).isSome

/-- `Map.set`: overwrite in place if the key is present, else append. -/
def mapSet (m : List (ℤ × Node)) (k : ℤ) (v : Node) : List (ℤ × Node) :=
  if mapHas m k then m.map fun e => if e.1 == k then (k, v) else e
  else m ++ [(k, v)]

/-- Update the adjacency lists of the node stored under key `k`
(the shallow-embedding image of mutating `node.neighbors` through an alias). -/
def modifyNb (m : List (ℤ × Node)) (k : ℤ) (f : List (List ℤ) → List (List ℤ)) :
    List (ℤ × Node) :=
  m.map fun e => if e.1 == k then (e.1, { e.2 with neighbors := f e.2.neighbors }) else e

/-- `node.neighbors[level] ?? []` (a missing or out-of-range entry reads as `[]`). -/
def getNb (nbs : List (List ℤ)) (ℓ : ℕ) : List ℤ :=
  nbs.getD ℓ []

/-- `node.neighbors[level] = v`, padding with `[]` below `ℓ` if the array is
shorter (JavaScript would leave holes there; both read back as `[]`). -/
def setNb (nbs : List (List ℤ)) (ℓ : ℕ) (v : List ℤ) : List (List ℤ) :=
  if ℓ < nbs.length then nbs.set ℓ v
  else (nbs ++ List.replicate (ℓ + 1 - nbs.length) []).set ℓ v

theorem getNb_setNb_same (nbs : List (List ℤ)) (ℓ : ℕ) (v : List ℤ) :
    getNb (setNb nbs ℓ v) ℓ = v := by
  unfold getNb setNb
  by_cases h : ℓ < nbs.length
  · rw [if_pos h, List.getD_eq_getElem?_getD, List.getElem?_set_self h]
    rfl
  · have hlen : ℓ < (nbs ++ List.replicate (ℓ + 1 - nbs.length) []).length := by
      simp only [List.length_append, List.length_replicate]
      omega
    rw [if_neg h, List.getD_eq_getElem?_getD, List.getElem?_set_self hlen]
    rfl

theorem getNb_setNb_other (nbs : List (List ℤ)) (ℓ ℓ' : ℕ) (v : List ℤ)
    (hne : ℓ' ≠ ℓ) : getNb (setNb nbs ℓ v) ℓ' = getNb nbs ℓ' := by
  unfold getNb setNb
  by_cases h : ℓ < nbs.length
  · rw [if_pos h, List.getD_eq_getElem?_getD, List.getD_eq_getElem?_getD,
      List.getElem?_set_ne (Ne.symm hne)]
  · rw [if_neg h, List.getD_eq_getElem?_getD, List.getD_eq_getElem?_getD,
      List.getElem?_set_ne (Ne.symm hne)]
    rcases lt_or_le ℓ' nbs.length with h' | h'
    · rw [List.getElem?_append_left h']
    · rw [List.getElem?_append_right h', List.getElem?_eq_none h',
        List.getElem?_replicate]
      by_cases h'' : ℓ' - nbs.length < ℓ + 1 - nbs.length
      · rw [if_pos h'']
        rfl
      · rw [if_neg h'']

/-! ### Stable descending sort (the image of `Array.prototype.sort` with a
`(a, b) => score(b) - score(a)` comparator; the JavaScript sort is stable) -/

/-- Insert `x` (which originally preceded all of `l`) before the first
element whose score is `≤` its own. -/
def insertDesc {α S : Type} [LinearOrder S] (score : α → S) (x : α) :
    List α → List α
  | [] => [x]
  | y :: ys => if score y ≤ score x then x :: y :: ys else y :: insertDesc score x ys

/-- Stable descending sort by `score`. -/
def sortDesc {α S : Type} [LinearOrder S] (score : α → S) : List α → List α
  | [] => []
  | x :: xs => insertDesc score x (sortDesc score xs)

theorem insertDesc_perm {α S : Type} [LinearOrder S] (score : α → S) (x : α)
    (l : List α) : List.Perm (insertDesc score x l) (x :: l) := by
  induction l with
  | nil => rfl
  | cons y ys ih =>
    unfold insertDesc
    by_cases h : score y ≤ score x
    · rw [if_pos h]
    · rw [if_neg h]
      exact (ih.cons y).trans (List.Perm.swap x y ys)

theorem sortDesc_perm {α S : Type} [LinearOrder S] (score : α → S)
    (l : List α) : List.Perm (sortDesc score l) l := by
  induction l with
  | nil => rfl
  | cons x xs ih =>
    exact (insertDesc_perm score x (sortDesc score xs)).trans (ih.cons x)

theorem insertDesc_sorted {α S : Type} [LinearOrder S] (score : α → S) (x : α)
    (l : List α) (h : l.Pairwise fun a b => score b ≤ score a) :
    (insertDesc score x l).Pairwise fun a b => score b ≤ score a := by
  induction l with
  | nil => simp [insertDesc]
  | cons y ys ih =>
    unfold insertDesc
    rcases List.pairwise_cons.mp h with ⟨hy, hys⟩
    by_cases hle : score y ≤ score x
    · rw [if_pos hle]
      refine List.pairwise_cons.mpr ⟨?_, h⟩
      intro b hb
      rcases List.mem_cons.mp hb with hb | hb
      · subst hb
        exact hle
      · exact le_trans (hy _ hb) hle
    · rw [if_neg hle]
      refine List.pairwise_cons.mpr ⟨?_, ih hys⟩
      intro b hb
      have hb' := (insertDesc_perm score x ys).mem_iff.mp hb
      rcases List.mem_cons.mp hb' with hb' | hb'
      · subst hb'
        exact le_of_not_le hle
      · exact hy _ hb'

theorem sortDesc_sorted {α S : Type} [LinearOrder S] (score : α → S)
    (l : List α) :
    (sortDesc score l).Pairwise fun a b => score b ≤ score a := by
  induction l with
  | nil => simp [sortDesc]
  | cons x xs ih => exact insertDesc_sorted score x _ ih

theorem sortDesc_mem {α S : Type} [LinearOrder S] (score : α → S) (l : List α)
    (x : α) : x ∈ sortDesc score l ↔ x ∈ l :=
  (sortDesc_perm score l).mem_iff

/-! ### `BinaryHeap` from `heap.ts`, backed by a list

The JavaScript comparator returns a number of which only the sign is
inspected (`> 0` to bubble, `<= 0` to stop); it is modelled by a Boolean
`pos a b` meaning `compare(a, b) > 0`.  For the two comparators used by the
search (`a.score - b.score` and `b.score - a.score`) this is exact. -/

/-- In-bounds swap of two list positions (identity when out of bounds;
`bubbleUp`/`bubbleDown` only swap in-bounds positions). -/
def listSwap {α : Type} (l : List α) (i j : ℕ) : List α :=
  match l.get? i, l.get? j with
  | some a, some b => (l.set i b).set j a
  | _, _ => l

/-- `i < length && compare(items[i], items[j]) > 0` (false out of bounds,
matching the explicit bounds checks in the source). -/
def posAt {α : Type} (pos : α → α → Bool) (l : List α) (i j : ℕ) : Bool :=
  match l.get? i, l.get? j with
  | some a, some b => pos a b
  | _, _ => false

/-- `bubbleUp` from `heap.ts`: while `i > 0` and the element compares above
its parent, swap it up.  The index strictly decreases at every iteration,
so the loop runs at most `i` times; callers pass `fuel = i + 1`, which
never runs out (structural fuel keeps the definition kernel-reducible). -/
def bubbleUp {α : Type} (pos : α → α → Bool) (fuel : ℕ) (l : List α) (i : ℕ) :
    List α :=
  match fuel with
  | 0 => l
  | fuel + 1 =>
    if i = 0 then l
    else
      let parent := (i - 1) / 2
      if posAt pos l i parent then bubbleUp pos fuel (listSwap l i parent) parent
      else l

/-- `bubbleDown` from `heap.ts`.  The index strictly increases at every
iteration and stays below the (invariant) length, so the loop runs at most
`l.length` times; callers pass `fuel = l.length + 1`, which never runs out. -/
def bubbleDown {α : Type} (pos : α → α → Bool) (fuel : ℕ) (l : List α) (i : ℕ) :
    List α :=
  match fuel with
  | 0 => l
  | fuel + 1 =>
    let left := 2 * i + 1
    let right := 2 * i + 2
    let largest₁ := if posAt pos l left i then left else i
    let largest := if posAt pos l right largest₁ then right else largest₁
    if largest = i then l else bubbleDown pos fuel (listSwap l i largest) largest

/-- `push`: append, then bubble the last element up. -/
def heapPush {α : Type} (pos : α → α → Bool) (l : List α) (x : α) : List α :=
  bubbleUp pos (l.length + 1) (l ++ [x]) l.length

/-- `pop`: return the root; move the last element to the root and bubble it
down. -/
def heapPop {α : Type} (pos : α → α → Bool) (l : List α) : Option α × List α :=
  match l with
  | [] => (none, [])
  | top :: _ =>
    match l.getLast? with
    | none => (some top, [])
    | some last =>
      let body := l.dropLast
      if body.isEmpty then (some top, [])
      else (some top, bubbleDown pos (body.length + 1) (body.set 0 last) 0)

/-- `peek`. -/
def heapPeek {α : Type} (l : List α) : Option α := l.head?

/-- Elements of a swap are elements of the original list. -/
theorem listSwap_subset {α : Type} (l : List α) (i j : ℕ) (x : α)
    (hx : x ∈ listSwap l i j) : x ∈ l := by
  unfold listSwap at hx
  rcases hgi : l.get? i with _ | a <;> rcases hgj : l.get? j with _ | b <;>
    rw [hgi, hgj] at hx <;> try exact hx
  rcases List.mem_or_eq_of_mem_set hx with hx' | hx'
  · rcases List.mem_or_eq_of_mem_set hx' with hx'' | hx''
    · exact hx''
    · subst hx''
      exact List.get?_mem hgj
  · subst hx'
    exact List.get?_mem hgi

theorem bubbleUp_subset {α : Type} (pos : α → α → Bool) (fuel : ℕ)
    (l : List α) (i : ℕ) (x : α) (hx : x ∈ bubbleUp pos fuel l i) : x ∈ l := by
  induction fuel generalizing l i with
  | zero => simpa [bubbleUp] using hx
  | succ fuel ih =>
    rw [bubbleUp] at hx
    by_cases hi : i = 0
    · simpa [hi] using hx
    · simp only [hi, if_false] at hx
      by_cases hpos : posAt pos l i ((i - 1) / 2)
      · simp only [hpos, if_true] at hx
        exact listSwap_subset _ _ _ _ (ih _ _ hx)
      · simpa [hpos] using hx

theorem bubbleDown_subset {α : Type} (pos : α → α → Bool) (fuel : ℕ)
    (l : List α) (i : ℕ) (x : α) (hx : x ∈ bubbleDown pos fuel l i) : x ∈ l := by
  induction fuel generalizing l i with
  | zero => simpa [bubbleDown] using hx
  | succ fuel ih =>
    rw [bubbleDown] at hx
    by_cases hl : (if posAt pos l (2 * i + 2)
        (if posAt pos l (2 * i + 1) i then 2 * i + 1 else i) then 2 * i + 2
        else if posAt pos l (2 * i + 1) i then 2 * i + 1 else i) = i
    · simpa [hl] using hx
    · simp only [hl, if_false] at hx
      exact listSwap_subset _ _ _ _ (ih _ _ hx)

theorem heapPush_subset {α : Type} (pos : α → α → Bool) (l : List α) (x y : α)
    (hy : y ∈ heapPush pos l x) : y ∈ l ∨ y = x := by
  have := bubbleUp_subset pos (l.length + 1) (l ++ [x]) l.length y hy
  simpa using this

theorem heapPop_subset {α : Type} (pos : α → α → Bool) (l : List α) (y : α)
    (hy : y ∈ (heapPop pos l).2) : y ∈ l := by
  unfold heapPop at hy
  rcases l with _ | ⟨top, rest⟩
  · simp at hy
  · rcases hlast : (top :: rest).getLast? with _ | last <;> rw [hlast] at hy
    · simp at hy
    · by_cases hb : (top :: rest).dropLast.isEmpty
      · simp only [hb, if_true] at hy
        simp at hy
      · simp only [hb, if_false] at hy
        have h1 := bubbleDown_subset _ _ _ _ _ hy
        rcases List.mem_or_eq_of_mem_set h1 with h2 | h2
        · exact List.dropLast_subset _ h2
        · subst h2
          rw [List.getLast?_eq_getElem?] at hlast
          exact List.getElem?_mem hlast

theorem heapPop_fst {α : Type} (pos : α → α → Bool) (l : List α) (y : α)
    (hy : (heapPop pos l).1 = some y) : y ∈ l := by
  unfold heapPop at hy
  rcases l with _ | ⟨top, rest⟩
  · simp at hy
  · rcases hlast : (top :: rest).getLast? with _ | last <;>
      rw [hlast] at hy
    · cases hy
      exact List.mem_cons_self _ _
    · by_cases hb : (top :: rest).dropLast.isEmpty <;>
        simp only [hb, if_true, if_false] at hy <;> cases hy <;>
        exact List.mem_cons_self _ _

/-! ### `selectLevel` from `main.ts`

`private selectLevel()` draws `r = Math.random()` and walks `probs`
subtracting each entry; the draw is the explicit parameter `r` here. -/

/-- The subtracting walk: returns the index at which `r` (progressively
decremented) first drops below the current probability. -/
def selectLevelGo : List ℚ → ℚ → ℕ → Option ℕ
  | [], _, _ => none
  | p :: rest, r, i => if r < p then some i else selectLevelGo rest (r - p) (i + 1)

/-- `selectLevel`: the walk, else `probs.length - 1` (an integer, `-1` when
`probs` is empty, exactly as in the source). -/
def selectLevel (probs : List ℚ) (r : ℚ) : ℤ :=
  match selectLevelGo probs r 0 with
  | some i => (i : ℤ)
  | none => (probs.length : ℤ) - 1

/-! ### Graph core: search -/

/-- `SearchCandidate`: a node paired with its score against the query.
During a search no mutation happens, so storing the `Node` value (as the
source stores the object reference) is faithful. -/
structure SC (S : Type) where
  node : Node
  score : S
deriving DecidableEq

variable {S : Type}

/-- Comparator of the `candidates` heap: `(a, b) => a.score - b.score`,
positive iff `a.score > b.score`. -/
def candPos [LinearOrder S] (a b : SC S) : Bool := b.score < a.score

/-- Comparator of the `best` heap: `(a, b) => b.score - a.score`,
positive iff `b.score > a.score`. -/
def bestPos [LinearOrder S] (a b : SC S) : Bool := a.score < b.score

/-- The descending list-index range `[hi, hi-1, ..., lo]`
(empty when `hi < lo`): the image of `for (let l = hi; l >= lo; l--)`. -/
def downRange (hi lo : ℤ) : List ℤ :=
  (List.range (hi - lo + 1).toNat).map fun i => hi - (i : ℤ)

/-- One pass of the `greedySearch` `while` body: scan the neighbour list,
tracking the best node, best score and the `improved` flag. -/
def greedyStep [LinearOrder S] (sim : Vec → Vec → S) (g : HNSW) (q : Vec)
    (st : Node × S × Bool) (nid : ℤ) : Node × S × Bool :=
  match mapGet g.nodes nid with
  | none => st
  | some nn =>
    let s := sim q nn.vector
    if st.2.1 < s then (nn, s, true) else st

/-- The fuelled `greedySearch` loop.  Each improving pass strictly increases
the best score, and every improvement moves to a node stored in the map, so
there are at most `g.nodes.length` improving passes; the fuel passed by
`greedySearch` therefore never runs out. -/
def greedyLoop [LinearOrder S] (sim : Vec → Vec → S) (g : HNSW) (q : Vec)
    (ℓ : ℕ) : ℕ → Node → S → Node
  | 0, best, _ => best
  | fuel + 1, best, bestScore =>
    let st := (getNb best.neighbors ℓ).foldl (greedyStep sim g q) (best, bestScore, false)
    if st.2.2 then greedyLoop sim g q ℓ fuel st.1 st.2.1 else st.1

/-- `greedySearch` from `main.ts`. -/
def greedySearch [LinearOrder S] (sim : Vec → Vec → S) (g : HNSW) (q : Vec)
    (entry : Node) (ℓ : ℕ) : Node :=
  greedyLoop sim g q ℓ (g.nodes.length + 2) entry (sim q entry.vector)

/-- Total number of adjacency entries in the graph (used only as a fuel
bound for the layer search). -/
def totalAdj (g : HNSW) : ℕ :=
  (g.nodes.map fun e => (e.2.neighbors.map List.length).sum).sum

/-- The body of `searchLayer`'s `for (const neighborId of neighbors)` loop:
state is `(visited, candidates-heap, best-heap)`. -/
def slExpand [LinearOrder S] (sim : Vec → Vec → S) (g : HNSW) (q : Vec)
    (ef : ℕ) (st : List ℤ × List (SC S) × List (SC S)) (nid : ℤ) :
    List ℤ × List (SC S) × List (SC S) :=
  let (visited, cands, best) := st
  if visited.contains nid then st
  else
    let visited' := nid :: visited
    match mapGet g.nodes nid with
    | none => (visited', cands, best)
    | some nn =>
      let s := sim q nn.vector
      let accept := best.length < ef ||
        (match heapPeek best with
         | none => true
         | some w => decide (w.score < s))
      if accept then
        let cands' := heapPush candPos cands ⟨nn, s⟩
        let best' := heapPush bestPos best ⟨nn, s⟩
        let best'' := if ef < best'.length then (heapPop bestPos best').2 else best'
        (visited', cands', best'')
      else (visited', cands, best)

/-- The fuelled `while (candidates.size > 0)` loop of `searchLayer`.
Every iteration pops one heap entry; entries are pushed only for ids freshly
added to `visited` (at most one push per adjacency entry) plus the seed, so
the total number of iterations is at most `totalAdj g + 1`; the fuel passed
by `searchLayer` never runs out. -/
def searchLayerLoop [LinearOrder S] (sim : Vec → Vec → S) (g : HNSW) (q : Vec)
    (ℓ ef : ℕ) : ℕ → List ℤ × List (SC S) × List (SC S) → List (SC S)
  | 0, st => st.2.2
  | fuel + 1, st =>
    let (visited, cands, best) := st
    match heapPop candPos cands with
    | (none, _) => best
    | (some current, cands') =>
      let stop := match heapPeek best with
        | none => false
        | some worst => decide (ef ≤ best.length) && decide (current.score < worst.score)
      if stop then best
      else
        let st' := (getNb current.node.neighbors ℓ).foldl
          (slExpand sim g q ef) (visited, cands', best)
        searchLayerLoop sim g q ℓ ef fuel st'

/-- `searchLayer` from `main.ts`: seed both heaps with the entry node,
run the loop, and return the kept nodes sorted by descending score. -/
def searchLayer [LinearOrder S] (sim : Vec → Vec → S) (g : HNSW) (q : Vec)
    (entry : Node) (ℓ ef : ℕ) : List Node :=
  let es := sim q entry.vector
  let final := searchLayerLoop sim g q ℓ ef (totalAdj g + 2)
    ([entry.id], [⟨entry, es⟩], [⟨entry, es⟩])
  (sortDesc SC.score final).map SC.node

/-! ### Graph core: neighbour selection and connection -/

/-- The `uniqueCandidates` map: skip the pivot's own id, then `Map.set` each
candidate keyed by id (first-occurrence position, last value). -/
def uniqueCands (pivotId : ℤ) (candidates : List Node) : List (ℤ × Node) :=
  candidates.foldl
    (fun m c =>
      if c.id = pivotId then m
      else if m.any fun e => e.1 == c.id then
        m.map fun e => if e.1 == c.id then (e.1, c) else e
      else m ++ [(c.id, c)])
    []

/-- The selection loop of `selectNeighborsHeuristic`: walk the scored
candidates in order, stop at the cap, accept a candidate iff every
already-selected neighbour is no closer to it than the pivot is. -/
def selGo [LinearOrder S] (sim : Vec → Vec → S) (m : ℕ) :
    List (Node × S) → List Node → List Node
  | [], sel => sel
  | e :: rest, sel =>
    if m ≤ sel.length then sel
    else if sel.all fun s => decide (sim e.1.vector s.vector ≤ e.2) then
      selGo sim m rest (sel ++ [e.1])
    else selGo sim m rest sel

/-- `selectNeighborsHeuristic` from `main.ts`. -/
def selectNeighborsHeuristic [LinearOrder S] (sim : Vec → Vec → S)
    (node : Node) (candidates : List Node) (maxNeighbors : ℕ) : List Node :=
  let scored := sortDesc (fun e : Node × S => e.2)
    ((uniqueCands node.id candidates).map fun e => (e.2, sim node.vector e.2.vector))
  selGo sim maxNeighbors scored []

/-- `insertNeighbor` from `main.ts`: re-run the heuristic over the existing
neighbours (minus any prior occurrence of `neighborId`) plus `neighborId`,
store the selection, and report the dropped ids.  The source receives the
node as a live alias; here it is fetched by id (the `none` case cannot occur
at any call site). -/
def insertNeighbor [LinearOrder S] (sim : Vec → Vec → S) (g : HNSW)
    (nodeId neighborId : ℤ) (ℓ : ℕ) : HNSW × List ℤ :=
  match mapGet g.nodes nodeId with
  | none => (g, [])
  | some node =>
    let existingIds := (getNb node.neighbors ℓ).filter fun i => i ≠ neighborId
    let candidateIds := existingIds ++ [neighborId]
    let candidateNodes := candidateIds.filterMap (mapGet g.nodes)
    let selected := selectNeighborsHeuristic sim node candidateNodes g.M
    let selectedIds := selected.map Node.id
    let removedIds := existingIds.filter fun i => ¬ selectedIds.contains i
    ({ g with nodes := modifyNb g.nodes nodeId fun nbs => setNb nbs ℓ selectedIds },
      removedIds)

/-- `removeReciprocalLinks` from `main.ts`: for every dropped id still in the
map, filter `nodeId` out of its layer-`ℓ` list. -/
def removeReciprocalLinks (g : HNSW) (nodeId : ℤ) (removedIds : List ℤ)
    (ℓ : ℕ) : HNSW :=
  removedIds.foldl
    (fun g r =>
      if (mapGet g.nodes r).isSome then
        { g with nodes := modifyNb g.nodes r fun nbs =>
            setNb nbs ℓ ((getNb nbs ℓ).filter fun i => i ≠ nodeId) }
      else g)
    g

/-- `addBidirectionalConnection` from `main.ts`. -/
def addBidirectionalConnection [LinearOrder S] (sim : Vec → Vec → S)
    (g : HNSW) (nodeId otherId : ℤ) (ℓ : ℕ) : HNSW :=
  let p₁ := insertNeighbor sim g nodeId otherId ℓ
  let p₂ := insertNeighbor sim p₁.1 otherId nodeId ℓ
  let g₃ := removeReciprocalLinks p₂.1 nodeId p₁.2 ℓ
  removeReciprocalLinks g₃ otherId p₂.2 ℓ

/-- `connectNodeAtLevel` from `main.ts`. -/
def connectNodeAtLevel [LinearOrder S] (sim : Vec → Vec → S) (g : HNSW)
    (node : Node) (candidates : List Node) (ℓ : ℕ) : HNSW :=
  let selected := selectNeighborsHeuristic sim node candidates g.M
  selected.foldl (fun g nb => addBidirectionalConnection sim g node.id nb.id ℓ) g

/-- The per-layer loop of `addNodeToGraph` step 4: beam-search the layer,
connect, and move the entry to the top candidate (re-fetched from the
updated map, as the source's object alias reflects the mutation). -/
def connectLoop [LinearOrder S] (sim : Vec → Vec → S) (node : Node) :
    HNSW → Node → List ℤ → HNSW
  | g, _, [] => g
  | g, entry, ℓ :: rest =>
    let nbrs := searchLayer sim g node.vector entry ℓ.toNat g.efConstruction
    let g' := connectNodeAtLevel sim g node nbrs ℓ.toNat
    let entry' := match nbrs.head? with
      | some nb => (mapGet g'.nodes nb.id).getD nb
      | none => entry
    connectLoop sim node g' entry' rest

/-- `addNodeToGraph` from `main.ts`.  The entry-point lookup carries a
non-null assertion in the source; the `none` case (unreachable) is a no-op. -/
def addNodeToGraph [LinearOrder S] (sim : Vec → Vec → S) (g : HNSW)
    (node : Node) : HNSW :=
  if g.entryPointId = -1 then
    { g with entryPointId := node.id, levelMax := (node.level : ℤ) }
  else
    match mapGet g.nodes g.entryPointId with
    | none => g
    | some entry₀ =>
      let currentMaxLevel := g.levelMax
      let entry₁ := (downRange currentMaxLevel ((node.level : ℤ) + 1)).foldl
        (fun e ℓ => greedySearch sim g node.vector e ℓ.toNat) entry₀
      let targetLevel := min (node.level : ℤ) currentMaxLevel
      let g' := connectLoop sim node g entry₁ (downRange targetLevel 0)
      if (node.level : ℤ) > g'.levelMax then
        { g' with entryPointId := node.id, levelMax := (node.level : ℤ) }
      else g'

/-- The two error kinds `addPoint` can throw. -/
inductive AddError where
  | dimensionMismatch
  | duplicateId
deriving DecidableEq

/-- `addPoint` from `main.ts`.  The level the source draws via
`this.selectLevel()` is the explicit parameter `lvl`.  Errors are surfaced
as a value together with the state at the throw (the source assigns
`this.d` before the duplicate check, so a duplicate throw leaves `d` set). -/
def addPoint [LinearOrder S] (sim : Vec → Vec → S) (g : HNSW) (id : ℤ)
    (vector : Vec) (lvl : ℕ) : HNSW × Option AddError :=
  if (match g.d with | some dv => decide (vector.length ≠ dv) | none => false) then
    (g, some .dimensionMismatch)
  else
    let g₁ := { g with d := some vector.length }
    if mapHas g₁.nodes id then (g₁, some .duplicateId)
    else
      let node := Node.make id vector lvl
      let g₂ := { g₁ with nodes := mapSet g₁.nodes id node }
      (addNodeToGraph sim g₂ node, none)

/-! ### Graph core: query -/

/-- The result-collection loop of `searchKNN`: dedupe by id, recompute the
score as `sim(node.vector, query)`, stop at `k` results. -/
def collectK [LinearOrder S] (sim : Vec → Vec → S) (q : Vec) (k : ℤ) :
    List Node → List ℤ → List (ℤ × S) → List (ℤ × S)
  | [], _, results => results
  | n :: rest, seen, results =>
    if seen.contains n.id then collectK sim q k rest seen results
    else
      let results' := results ++ [(n.id, sim n.vector q)]
      if (results'.length : ℤ) = k then results'
      else collectK sim q k rest (n.id :: seen) results'

/-- `searchKNN` from `main.ts`.  `k` is a caller-supplied JavaScript number
(possibly `≤ 0`), `efOpt` is `options?.efSearch`.  The entry-point lookup is
non-null-asserted in the source; its `none` case (unreachable) returns `[]`. -/
def searchKNN [LinearOrder S] (sim : Vec → Vec → S) (g : HNSW) (q : Vec)
    (k : ℤ) (efOpt : Option ℕ) : List (ℤ × S) :=
  if g.entryPointId = -1 ∨ g.nodes.length = 0 ∨ k ≤ 0 then []
  else
    match mapGet g.nodes g.entryPointId with
    | none => []
    | some entry₀ =>
      let entry := (downRange g.levelMax 1).foldl
        (fun e ℓ => greedySearch sim g q e ℓ.toNat) entry₀
      let ef := (max k ((efOpt.getD g.efSearch : ℕ) : ℤ)).toNat
      let candidates := searchLayer sim g q entry 0 ef
      collectK sim q k candidates [] []

/-- `searchKNN` in state-passing form: every step of the method is a read,
so the threaded state comes back unchanged; `searchKNNState` makes that
frame property a statable fact. -/
def searchKNNState [LinearOrder S] (sim : Vec → Vec → S) (g : HNSW) (q : Vec)
    (k : ℤ) (efOpt : Option ℕ) : List (ℤ × S) × HNSW :=
  if g.entryPointId = -1 ∨ g.nodes.length = 0 ∨ k ≤ 0 then ([], g)
  else
    match mapGet g.nodes g.entryPointId with
    | none => ([], g)
    | some entry₀ =>
      let entry := (downRange g.levelMax 1).foldl
        (fun e ℓ => greedySearch sim g q e ℓ.toNat) entry₀
      let ef := (max k ((efOpt.getD g.efSearch : ℕ) : ℤ)).toNat
      let candidates := searchLayer sim g q entry 0 ef
      (collectK sim q k candidates [] [], g)

/-! ### Bulk build -/

/-- JavaScript `(x % interval) === 0` (with `x ≥ 1`; `x % 0` is `NaN`,
never `0`). -/
def jsModIsZero (x interval : ℕ) : Bool :=
  if interval = 0 then false else x % interval = 0

/-- JavaScript `(total % interval) !== 0` (`total % 0` is `NaN`, hence
`!== 0` holds). -/
def jsModNeZero (total interval : ℕ) : Bool :=
  if interval = 0 then true else total % interval ≠ 0

/-- The insertion loop of `buildIndex`.  `onProgress` is `true` when a
callback was supplied; the returned list records the `(current, total)`
invocations.  An `addPoint` throw aborts the loop (the exception
propagates), skipping the final progress call. -/
def buildLoop [LinearOrder S] (sim : Vec → Vec → S) (interval total : ℕ)
    (onProgress : Bool) :
    HNSW → List (ℤ × Vec × ℕ) → ℕ → List (ℕ × ℕ) →
    HNSW × List (ℕ × ℕ) × Option AddError
  | g, [], _, calls =>
    (g, calls ++ (if onProgress && jsModNeZero total interval
      then [(total, total)] else []), none)
  | g, (id, vec, lvl) :: rest, i, calls =>
    match addPoint sim g id vec lvl with
    | (g', some e) => (g', calls, some e)
    | (g', none) =>
      let calls' := if onProgress && jsModIsZero (i + 1) interval
        then calls ++ [(i + 1, total)] else calls
      buildLoop sim interval total onProgress g' rest (i + 1) calls'

/-- `buildIndex` from `main.ts`: clear the graph, then insert each datum in
order.  Each datum carries the level its insertion draws. -/
def buildIndex [LinearOrder S] (sim : Vec → Vec → S) (g : HNSW)
    (data : List (ℤ × Vec × ℕ)) (onProgress : Bool)
    (progressInterval : Option ℕ) : HNSW × List (ℕ × ℕ) × Option AddError :=
  let g₀ := { g with nodes := [], levelMax := -1, entryPointId := -1, d := none }
  let total := data.length
  let interval := progressInterval.getD 10000
  buildLoop sim interval total onProgress g₀ data 0 []

/-! ### Serialization -/

/-- `⌊log₂ n⌋` on naturals by fuelled halving (`0` on `0`; the recursion
depth `⌊log₂ n⌋` is bounded by the fuel `n`). -/
def natLog2Go : ℕ → ℕ → ℕ
  | 0, _ => 0
  | fuel + 1, n => if n ≤ 1 then 0 else natLog2Go fuel (n / 2) + 1

def natLog2 (n : ℕ) : ℕ := natLog2Go n n

/-- Round `N / D` (`D > 0`) to the nearest natural, ties to even. -/
def roundHalfEvenND (N D : ℕ) : ℕ :=
  let q := N / D
  let r := N % D
  if 2 * r < D then q
  else if D < 2 * r then q + 1
  else if q % 2 = 0 then q else q + 1

/-- `⌊log₂ (n / d)⌋` for positive naturals `n`, `d` (as a rational). -/
def ratFloorLog2 (n d : ℕ) : ℤ :=
  if d ≤ n then (natLog2 (n / d) : ℤ)
  else
    let k := natLog2 (d / n)
    if n * 2 ^ k = d then -(k : ℤ) else -(k : ℤ) - 1

/-- IEEE-754 binary32 quantization of a number — what storing it into a
`Float32Array` does: round to nearest on the binary32 grid (spacing
`2^(e-23)` for a magnitude whose floor-log₂ `e` is at least `-126`, the
subnormal spacing `2^-149` below that), ties to even.  The rational
embedding of JS numbers used throughout this file carries no infinities,
so this covers the binary32 finite range; the round-trip theorem below
restricts to it explicitly via the `< 2^128` magnitude bound. -/
def f32 (q : ℚ) : ℚ :=
  if q = 0 then 0
  else
    let n := q.num.natAbs
    let d := q.den
    let e := ratFloorLog2 n d
    let t := max (e - 23) (-149)
    let N := n * 2 ^ (max 0 (-t)).toNat
    let D := d * 2 ^ (max 0 t).toNat
    let m := roundHalfEvenND N D
    let mag : ℚ := (m : ℚ) * (2 : ℚ) ^ (max 0 t).toNat * ((2 : ℚ) ^ (max 0 (-t)).toNat)⁻¹
    if q < 0 then -mag else mag

/-- The per-node snapshot record produced by `toJSON`. -/
structure NodeJSON where
  id : ℤ
  level : ℕ
  vector : Vec
  neighbors : List (List ℤ)
deriving DecidableEq

/-- The snapshot produced by `toJSON`. -/
structure GraphJSON where
  M : ℕ
  efConstruction : ℕ
  efSearch : ℕ
  metric : Metric
  d : Option ℕ
  levelMax : ℤ
  entryPointId : ℤ
  nodes : List (ℤ × NodeJSON)
deriving DecidableEq

/-- `toJSON` from `main.ts` (`Array.from` copies are identities here). -/
def toJSON (g : HNSW) : GraphJSON :=
  { M := g.M, efConstruction := g.efConstruction, efSearch := g.efSearch,
    metric := g.metric, d := g.d, levelMax := g.levelMax,
    entryPointId := g.entryPointId,
    nodes := g.nodes.map fun e =>
      (e.1, { id := e.2.id, level := e.2.level, vector := e.2.vector,
              neighbors := e.2.neighbors }) }

/-- `fromJSON` from `main.ts`: construct with the snapshot's parameters,
restore `levelMax`, `entryPointId` and the node map; each node is rebuilt
with the `Node` constructor from `new Float32Array(node.vector)` — which
quantizes every stored component to binary32 (`f32`) — and its `neighbors`
then overwritten with the stored lists. -/
def fromJSON (j : GraphJSON) : HNSW :=
  let h := HNSW.new j.M j.efConstruction j.d j.metric j.efSearch
  { h with
    levelMax := j.levelMax
    entryPointId := j.entryPointId
    nodes := j.nodes.map fun e =>
      (e.1, { Node.make e.2.id (e.2.vector.map f32) e.2.level with
              neighbors := e.2.neighbors }) }

/-! ### Reachable graphs -/

/-- Run a sequence of `addPoint` calls (id, vector, drawn level).  A call
that throws leaves the state as at the throw and the run continues with the
next call; for the invariant claims only the set of states that can occur
matters, and neither error path touches the graph fields the invariants
speak about (a dimension mismatch changes nothing, a duplicate id changes
only `d`). -/
def runInsertions [LinearOrder S] (sim : Vec → Vec → S) (g : HNSW)
    (ps : List (ℤ × Vec × ℕ)) : HNSW :=
  ps.foldl (fun g p => (addPoint sim g p.1 p.2.1 p.2.2).1) g

/-- A three-node layer-0 graph (`M = 1`) in which installing the edge 1–3
prunes node 2 out of node 1's list, exercising the reciprocal-link repair. -/
def pruneDemoGraph : HNSW :=
  { metric := Metric.euclidean, d := some 1, M := 1, efConstruction := 2,
    efSearch := 2, levelMax := 0, entryPointId := 1,
    nodes := [(1, Node.mk 1 [0] 0 [[2]]), (2, Node.mk 2 [4] 0 [[1]]),
      (3, Node.mk 3 [1] 0 [[]])] }

/-- The layer-`ℓ` adjacency list of the node stored under `id`. -/
def nbrsOf (g : HNSW) (id : ℤ) (ℓ : ℕ) : List ℤ :=
  match mapGet g.nodes id with
  | some n => getNb n.neighbors ℓ
  | none => []

/-- Four euclidean points whose insertion (all levels drawn 0, which has
positive probability for `M = 2`) produces a one-directional edge:
node 1 at `(2,0)` first acquires neighbours 2 at `(3,1)` and 3 at `(3,-1)`;
when node 4 at `(0,0)` is inserted its heuristic selects node 1, but
node 1's own heuristic keeps 2 and 3 (both closer to 1 than 4 is) and the
cap `M = 2` rejects 4, leaving the edge `4 → 1` without its reverse. -/
def cexC1Graph : HNSW :=
  runInsertions euclideanSimilarity (HNSW.new 2 200 none Metric.euclidean 50)
    [(1, [2, 0], 0), (2, [3, 1], 0), (3, [3, -1], 0), (4, [0, 0], 0)]

/-! ## Claim C3: `selectLevel` -/

theorem selectLevelGo_eq_some (probs : List ℚ) (r : ℚ) (i ℓ : ℕ)
    (hℓ : ℓ < probs.length) (hlt : r < (probs.take (ℓ + 1)).sum)
    (hmin : ∀ j, j < ℓ → (probs.take (j + 1)).sum ≤ r) :
    selectLevelGo probs r i = some (i + ℓ) := by
  induction probs generalizing r i ℓ with
  | nil => simp at hℓ
  | cons p rest ih =>
    cases ℓ with
    | zero =>
      have hr : r < p := by simpa using hlt
      simp [selectLevelGo, hr]
    | succ m =>
      have hple : p ≤ r := by simpa using hmin 0 (Nat.succ_pos m)
      rw [selectLevelGo, if_neg (not_lt.mpr hple)]
      have h1 : m < rest.length := by simpa using hℓ
      have h2 : r - p < (rest.take (m + 1)).sum := by
        rw [List.take_succ_cons, List.sum_cons] at hlt
        linarith
      have h3 : ∀ j, j < m → (rest.take (j + 1)).sum ≤ r - p := by
        intro j hj
        have := hmin (j + 1) (by omega)
        rw [List.take_succ_cons, List.sum_cons] at this
        linarith
      rw [ih (r - p) (i + 1) m h1 h2 h3]
      congr 1
      omega

theorem selectLevelGo_eq_none (probs : List ℚ) (r : ℚ) (i : ℕ)
    (hall : ∀ j, j < probs.length → (probs.take (j + 1)).sum ≤ r) :
    selectLevelGo probs r i = none := by
  induction probs generalizing r i with
  | nil => rfl
  | cons p rest ih =>
    have hple : p ≤ r := by simpa using hall 0 (by simp)
    rw [selectLevelGo, if_neg (not_lt.mpr hple)]
    refine ih (r - p) (i + 1) ?_
    intro j hj
    have := hall (j + 1) (by simpa using Nat.succ_lt_succ hj)
    rw [List.take_succ_cons, List.sum_cons] at this
    linarith

/-- C3 (amended): `selectLevel` subtracts each probability from `r` as it
walks, so it returns the smallest `ℓ` with
`r < probs[0] + ... + probs[ℓ]` (the prefix sum, not `probs[ℓ]` itself),
and `probs.length − 1` when no prefix sum exceeds `r`. -/
theorem selectLevel_cdf_spec (probs : List ℚ) (r : ℚ) :
    (∀ ℓ : ℕ, ℓ < probs.length → r < (probs.take (ℓ + 1)).sum →
      (∀ j, j < ℓ → (probs.take (j + 1)).sum ≤ r) →
      selectLevel probs r = (ℓ : ℤ))
    ∧ ((∀ j, j < probs.length → (probs.take (j + 1)).sum ≤ r) →
      selectLevel probs r = (probs.length : ℤ) - 1) := by
  constructor
  · intro ℓ hℓ hlt hmin
    unfold selectLevel
    rw [selectLevelGo_eq_some probs r 0 ℓ hℓ hlt hmin]
    simp
  · intro hall
    unfold selectLevel
    rw [selectLevelGo_eq_none probs r 0 hall]

unseal Rat.add Rat.sub Rat.mul Rat.inv Rat.ofScientific in
/-- C3 witness: with `probs = [1/2, 3/10, 1/5]` and `r = 3/5`, the first
prefix sum exceeding `r` is at index 1 (`1/2 + 3/10 = 4/5`), and the code
indeed returns 1. -/
theorem selectLevel_cdf_spec_witness :
    selectLevel [1/2, 3/10, 1/5] (3/5) = (1 : ℤ) :=
  (selectLevel_cdf_spec [1/2, 3/10, 1/5] (3/5)).1 1 (by decide) (by decide)
    (by decide)

unseal Rat.add Rat.sub Rat.mul Rat.inv Rat.ofScientific in
/-- C3 counterexample: with `probs = [1/2, 3/10, 1/5]` and `r = 3/5` no
index satisfies `r < probs[ℓ]`, so the claimed rule ("smallest `ℓ` with
`r < probs[ℓ]`, else `probs.length − 1`") would return `2`; the code
returns `1`. -/
theorem selectLevel_counterexample :
    selectLevel [1/2, 3/10, 1/5] (3/5) = (1 : ℤ)
    ∧ ¬ ((3 : ℚ)/5 < ([1/2, 3/10, 1/5] : List ℚ).getD 0 0)
    ∧ ¬ ((3 : ℚ)/5 < ([1/2, 3/10, 1/5] : List ℚ).getD 1 0)
    ∧ ¬ ((3 : ℚ)/5 < ([1/2, 3/10, 1/5] : List ℚ).getD 2 0)
    ∧ (1 : ℤ) ≠ (([1/2, 3/10, 1/5] : List ℚ).length : ℤ) - 1 := by
  decide

/-! ## The neighbour-selection heuristic: structural lemmas -/

theorem uniqueCands_fold (pivotId : ℤ) (P : Node → Prop) :
    ∀ (cs : List Node) (acc : List (ℤ × Node)),
    (∀ c ∈ cs, P c) →
    ((acc.map Prod.fst).Nodup ∧ ∀ e ∈ acc, e.2.id = e.1 ∧ e.1 ≠ pivotId ∧ P e.2) →
    (((cs.foldl
      (fun m c =>
        if c.id = pivotId then m
        else if m.any fun e => e.1 == c.id then
          m.map fun e => if e.1 == c.id then (e.1, c) else e
        else m ++ [(c.id, c)])
      acc).map Prod.fst).Nodup
    ∧ ∀ e ∈ cs.foldl
      (fun m c =>
        if c.id = pivotId then m
        else if m.any fun e => e.1 == c.id then
          m.map fun e => if e.1 == c.id then (e.1, c) else e
        else m ++ [(c.id, c)])
      acc, e.2.id = e.1 ∧ e.1 ≠ pivotId ∧ P e.2) := by
  intro cs
  induction cs with
  | nil =>
    intro acc _ hacc
    exact hacc
  | cons c rest ih =>
    intro acc hcs hacc
    rcases hacc with ⟨hkeys, hvals⟩
    simp only [List.foldl_cons]
    by_cases hpiv : c.id = pivotId
    · rw [if_pos hpiv]
      exact ih acc (fun x hx => hcs x (List.mem_cons_of_mem _ hx)) ⟨hkeys, hvals⟩
    · rw [if_neg hpiv]
      by_cases hhit : acc.any fun e => e.1 == c.id
      · rw [if_pos hhit]
        refine ih _ (fun x hx => hcs x (List.mem_cons_of_mem _ hx)) ⟨?_, ?_⟩
        · have : (acc.map fun e => if e.1 == c.id then (e.1, c) else e).map Prod.fst
              = acc.map Prod.fst := by
            rw [List.map_map]
            refine List.map_congr_left ?_
            intro e _
            by_cases he : e.1 = c.id <;> simp [he]
          rw [this]
          exact hkeys
        · intro e he
          rcases List.mem_map.mp he with ⟨e₀, he₀, heq⟩
          by_cases he' : e₀.1 == c.id
          · rw [if_pos he'] at heq
            subst heq
            have hk : e₀.1 = c.id := by simpa using he'
            refine ⟨hk.symm, ?_, hcs c (List.mem_cons_self _ _)⟩
            simpa [← hk] using hpiv ∘ hk.symm.trans
          · rw [if_neg he'] at heq
            subst heq
            exact hvals e₀ he₀
      · rw [if_neg hhit]
        refine ih _ (fun x hx => hcs x (List.mem_cons_of_mem _ hx)) ⟨?_, ?_⟩
        · rw [List.map_append]
          refine List.Nodup.append hkeys (by simp) ?_
          intro k hk1 hk2
          simp only [List.map_cons, List.map_nil, List.mem_singleton] at hk2
          subst hk2
          rcases List.mem_map.mp hk1 with ⟨e, he, heq⟩
          have hhit' : ∀ x : Node, (c.id, x) ∉ acc := by simpa using hhit
          refine hhit' e.2 ?_
          have he' : (c.id, e.2) = e := by
            rcases e with ⟨k₀, v⟩
            simp only at heq
            subst heq
            rfl
          rw [he']
          exact he
        · intro e he
          rcases List.mem_append.mp he with he | he
          · exact hvals e he
          · simp only [List.mem_singleton] at he
            subst he
            exact ⟨rfl, hpiv, hcs c (List.mem_cons_self _ _)⟩

theorem uniqueCands_spec (pivotId : ℤ) (cands : List Node) :
    ((uniqueCands pivotId cands).map Prod.fst).Nodup
    ∧ ∀ e ∈ uniqueCands pivotId cands,
        e.2.id = e.1 ∧ e.1 ≠ pivotId ∧ e.2 ∈ cands := by
  exact uniqueCands_fold pivotId (· ∈ cands) cands [] (fun _ h => h)
    ⟨List.nodup_nil, by simp⟩

theorem selGo_append {S : Type} [LinearOrder S] (sim : Vec → Vec → S) (m : ℕ) :
    ∀ (scored : List (Node × S)) (sel : List Node),
    ∃ l, selGo sim m scored sel = sel ++ l ∧ l.Sublist (scored.map Prod.fst) := by
  intro scored
  induction scored with
  | nil =>
    intro sel
    exact ⟨[], by simp [selGo], List.nil_sublist _⟩
  | cons e rest ih =>
    intro sel
    unfold selGo
    by_cases hstop : m ≤ sel.length
    · rw [if_pos hstop]
      exact ⟨[], by simp, List.nil_sublist _⟩
    · rw [if_neg hstop]
      by_cases hadm : sel.all fun s => decide (sim e.1.vector s.vector ≤ e.2)
      · rw [if_pos hadm]
        rcases ih (sel ++ [e.1]) with ⟨l, hl, hsub⟩
        refine ⟨e.1 :: l, ?_, ?_⟩
        · rw [hl, List.append_assoc]
          rfl
        · simpa using List.Sublist.cons₂ e.1 hsub
      · rw [if_neg hadm]
        rcases ih sel with ⟨l, hl, hsub⟩
        exact ⟨l, hl, hsub.trans (List.sublist_cons_self _ _)⟩

theorem selGo_length {S : Type} [LinearOrder S] (sim : Vec → Vec → S) (m : ℕ) :
    ∀ (scored : List (Node × S)) (sel : List Node),
    (selGo sim m scored sel).length ≤ max m sel.length := by
  intro scored
  induction scored with
  | nil =>
    intro sel
    simp [selGo]
  | cons e rest ih =>
    intro sel
    unfold selGo
    by_cases hstop : m ≤ sel.length
    · rw [if_pos hstop]
      exact le_max_right _ _
    · rw [if_neg hstop]
      by_cases hadm : sel.all fun s => decide (sim e.1.vector s.vector ≤ e.2)
      · rw [if_pos hadm]
        have := ih (sel ++ [e.1])
        have hlen : (sel ++ [e.1]).length = sel.length + 1 := by simp
        rw [hlen] at this
        refine this.trans ?_
        have h1 : sel.length + 1 ≤ m := by omega
        omega
      · rw [if_neg hadm]
        exact ih sel

theorem selGo_admission {S : Type} [LinearOrder S] (sim : Vec → Vec → S)
    (m : ℕ) (f : Node → S) :
    ∀ (scored : List (Node × S)) (sel : List Node),
    (∀ e ∈ scored, e.2 = f e.1) →
    sel.Pairwise (fun s c => sim c.vector s.vector ≤ f c) →
    (selGo sim m scored sel).Pairwise fun s c => sim c.vector s.vector ≤ f c := by
  intro scored
  induction scored with
  | nil =>
    intro sel _ hsel
    exact hsel
  | cons e rest ih =>
    intro sel hscore hsel
    unfold selGo
    by_cases hstop : m ≤ sel.length
    · rw [if_pos hstop]
      exact hsel
    · rw [if_neg hstop]
      by_cases hadm : sel.all fun s => decide (sim e.1.vector s.vector ≤ e.2)
      · rw [if_pos hadm]
        refine ih (sel ++ [e.1]) (fun x hx => hscore x (List.mem_cons_of_mem _ hx)) ?_
        rw [List.pairwise_append]
        refine ⟨hsel, List.pairwise_singleton _ _, ?_⟩
        intro s hs c hc
        simp only [List.mem_singleton] at hc
        subst hc
        have := List.all_eq_true.mp hadm s hs
        have h2 := of_decide_eq_true this
        rw [hscore e (List.mem_cons_self _ _)] at h2
        exact h2
      · rw [if_neg hadm]
        exact ih sel (fun x hx => hscore x (List.mem_cons_of_mem _ hx)) hsel

theorem heuristic_scored_fst_ids {S : Type} [LinearOrder S]
    (sim : Vec → Vec → S) (node : Node) (cands : List Node) :
    (((sortDesc (fun e : Node × S => e.2)
      ((uniqueCands node.id cands).map fun e => (e.2, sim node.vector e.2.vector))).map
        Prod.fst).map Node.id).Nodup := by
  have hperm := sortDesc_perm (fun e : Node × S => e.2)
    ((uniqueCands node.id cands).map fun e => (e.2, sim node.vector e.2.vector))
  have hperm2 := ((hperm.map Prod.fst).map Node.id)
  refine hperm2.nodup_iff.mpr ?_
  have heq : (List.map Node.id (List.map Prod.fst
      ((uniqueCands node.id cands).map fun e => (e.2, sim node.vector e.2.vector))))
      = (uniqueCands node.id cands).map Prod.fst := by
    rw [List.map_map, List.map_map]
    refine List.map_congr_left ?_
    intro e he
    exact ((uniqueCands_spec node.id cands).2 e he).1
  rw [heq]
  exact (uniqueCands_spec node.id cands).1

/-- The output of the heuristic: at most `m` neighbours. -/
theorem heuristic_length {S : Type} [LinearOrder S] (sim : Vec → Vec → S)
    (node : Node) (cands : List Node) (m : ℕ) :
    (selectNeighborsHeuristic sim node cands m).length ≤ m := by
  unfold selectNeighborsHeuristic
  have := selGo_length sim m (sortDesc (fun e : Node × S => e.2)
    ((uniqueCands node.id cands).map fun e => (e.2, sim node.vector e.2.vector))) []
  simpa using this

/-- The output of the heuristic: distinct ids. -/
theorem heuristic_ids_nodup {S : Type} [LinearOrder S] (sim : Vec → Vec → S)
    (node : Node) (cands : List Node) (m : ℕ) :
    ((selectNeighborsHeuristic sim node cands m).map Node.id).Nodup := by
  unfold selectNeighborsHeuristic
  rcases selGo_append sim m (sortDesc (fun e : Node × S => e.2)
    ((uniqueCands node.id cands).map fun e => (e.2, sim node.vector e.2.vector))) []
    with ⟨l, hl, hsub⟩
  rw [hl, List.nil_append]
  exact (heuristic_scored_fst_ids sim node cands).sublist (hsub.map Node.id)

/-- The output of the heuristic: the pivot's own id is excluded. -/
theorem heuristic_no_pivot {S : Type} [LinearOrder S] (sim : Vec → Vec → S)
    (node : Node) (cands : List Node) (m : ℕ) :
    node.id ∉ (selectNeighborsHeuristic sim node cands m).map Node.id := by
  unfold selectNeighborsHeuristic
  rcases selGo_append sim m (sortDesc (fun e : Node × S => e.2)
    ((uniqueCands node.id cands).map fun e => (e.2, sim node.vector e.2.vector))) []
    with ⟨l, hl, hsub⟩
  rw [hl, List.nil_append]
  intro hmem
  rcases List.mem_map.mp hmem with ⟨c, hc, hcid⟩
  have hc' := hsub.subset hc
  rcases List.mem_map.mp hc' with ⟨p, hp, hpc⟩
  rcases (sortDesc_mem _ _ p).mp hp with hp'
  rcases List.mem_map.mp hp' with ⟨e, he, hpe⟩
  have hspec := ((uniqueCands_spec node.id cands).2 e he)
  have : c = e.2 := by
    rw [← hpe] at hpc
    simpa using hpc.symm
  subst this
  exact hspec.2.1 (hspec.1.symm.trans hcid |>.symm.trans rfl).symm

/-- The output of the heuristic: a subset of the candidate list. -/
theorem heuristic_mem {S : Type} [LinearOrder S] (sim : Vec → Vec → S)
    (node : Node) (cands : List Node) (m : ℕ) :
    ∀ c ∈ selectNeighborsHeuristic sim node cands m, c ∈ cands := by
  unfold selectNeighborsHeuristic
  rcases selGo_append sim m (sortDesc (fun e : Node × S => e.2)
    ((uniqueCands node.id cands).map fun e => (e.2, sim node.vector e.2.vector))) []
    with ⟨l, hl, hsub⟩
  rw [hl, List.nil_append]
  intro c hc
  have hc' := hsub.subset hc
  rcases List.mem_map.mp hc' with ⟨p, hp, hpc⟩
  rcases (sortDesc_mem _ _ p).mp hp with hp'
  rcases List.mem_map.mp hp' with ⟨e, he, hpe⟩
  have hspec := ((uniqueCands_spec node.id cands).2 e he)
  have : c = e.2 := by
    rw [← hpe] at hpc
    simpa using hpc.symm
  subst this
  exact hspec.2.2

/-- The output of the heuristic is listed in descending score order
(the processing order). -/
theorem heuristic_sorted {S : Type} [LinearOrder S] (sim : Vec → Vec → S)
    (node : Node) (cands : List Node) (m : ℕ) :
    (selectNeighborsHeuristic sim node cands m).Pairwise
      fun a b => sim node.vector b.vector ≤ sim node.vector a.vector := by
  unfold selectNeighborsHeuristic
  rcases selGo_append sim m (sortDesc (fun e : Node × S => e.2)
    ((uniqueCands node.id cands).map fun e => (e.2, sim node.vector e.2.vector))) []
    with ⟨l, hl, hsub⟩
  rw [hl, List.nil_append]
  have hsorted := sortDesc_sorted (fun e : Node × S => e.2)
    ((uniqueCands node.id cands).map fun e => (e.2, sim node.vector e.2.vector))
  have hscore : ∀ e ∈ sortDesc (fun e : Node × S => e.2)
      ((uniqueCands node.id cands).map fun e => (e.2, sim node.vector e.2.vector)),
      e.2 = sim node.vector e.1.vector := by
    intro e he
    rcases List.mem_map.mp ((sortDesc_mem _ _ e).mp he) with ⟨p, _, hpe⟩
    rw [← hpe]
  have hpw : (sortDesc (fun e : Node × S => e.2)
      ((uniqueCands node.id cands).map fun e => (e.2, sim node.vector e.2.vector))).Pairwise
      fun a b => sim node.vector b.1.vector ≤ sim node.vector a.1.vector := by
    refine hsorted.imp_of_mem ?_
    intro a b ha hb hab
    rw [← hscore a ha, ← hscore b hb]
    exact hab
  have h1 : ((sortDesc (fun e : Node × S => e.2)
      ((uniqueCands node.id cands).map fun e =>
        (e.2, sim node.vector e.2.vector))).map Prod.fst).Pairwise
      (fun a b => sim node.vector b.vector ≤ sim node.vector a.vector) :=
    List.pairwise_map.mpr hpw
  exact List.Pairwise.sublist hsub h1

/-- The admission rule: each selected neighbour is no closer to any
previously selected neighbour than the pivot is to it. -/
theorem heuristic_admission {S : Type} [LinearOrder S] (sim : Vec → Vec → S)
    (node : Node) (cands : List Node) (m : ℕ) :
    (selectNeighborsHeuristic sim node cands m).Pairwise
      fun s c => sim c.vector s.vector ≤ sim node.vector c.vector := by
  unfold selectNeighborsHeuristic
  refine selGo_admission sim m (fun c => sim node.vector c.vector) _ [] ?_
    List.Pairwise.nil
  intro e he
  rcases List.mem_map.mp ((sortDesc_mem _ _ e).mp he) with ⟨p, _, hpe⟩
  rw [← hpe]

/-! ## Claim C4 -/

unseal Rat.add Rat.sub Rat.mul Rat.inv Rat.ofScientific in
/-- C4: the neighbour-selection heuristic drops the pivot and duplicate
ids, processes candidates in descending `score(v, ·)` order, accepts a
candidate exactly when every already-selected neighbour is no closer to it
than the pivot (`score(c, s) ≤ score(v, c)`), and stops at the cap; on the
concrete instance — pivot `[0,0]`, candidates `(2,[1,0])`, `(3,[2,0])`,
`(4,[0,2])`, euclidean metric, cap 2 — it selects exactly `[2, 4]` in that
order. -/
theorem selectNeighbors_spec :
    ((selectNeighborsHeuristic euclideanSimilarity (Node.make 1 [0, 0] 0)
      [Node.make 2 [1, 0] 0, Node.make 3 [2, 0] 0, Node.make 4 [0, 2] 0]
      2).map Node.id = [2, 4])
    ∧ (∀ (S : Type) (_ : LinearOrder S) (sim : Vec → Vec → S) (node : Node)
        (cands : List Node) (m : ℕ),
        (selectNeighborsHeuristic sim node cands m).length ≤ m
        ∧ ((selectNeighborsHeuristic sim node cands m).map Node.id).Nodup
        ∧ node.id ∉ (selectNeighborsHeuristic sim node cands m).map Node.id
        ∧ (∀ c ∈ selectNeighborsHeuristic sim node cands m, c ∈ cands)
        ∧ (selectNeighborsHeuristic sim node cands m).Pairwise
            (fun a b => sim node.vector b.vector ≤ sim node.vector a.vector)
        ∧ (selectNeighborsHeuristic sim node cands m).Pairwise
            fun s c => sim c.vector s.vector ≤ sim node.vector c.vector) := by
  constructor
  · decide
  · intro S inst sim node cands m
    exact ⟨heuristic_length sim node cands m,
      heuristic_ids_nodup sim node cands m,
      heuristic_no_pivot sim node cands m,
      heuristic_mem sim node cands m,
      heuristic_sorted sim node cands m,
      heuristic_admission sim node cands m⟩

/-! ## Claim C2: snapshot round-trip -/

theorem fromJSON_toJSON (g : HNSW)
    (hf : ∀ e ∈ g.nodes, ∀ c ∈ e.2.vector, f32 c = c) :
    fromJSON (toJSON g) = g := by
  cases g with
  | mk metric d M efC efS lM ep nodes =>
    unfold toJSON fromJSON HNSW.new
    simp only [HNSW.mk.injEq, List.map_map, true_and]
    simp only at hf
    induction nodes with
    | nil => rfl
    | cons e rest ih =>
      rcases e with ⟨k, n⟩
      cases n with
      | mk nid nvec nlvl nnbs =>
        have hvec : nvec.map f32 = nvec :=
          (List.map_congr_left fun c hc =>
            hf (k, Node.mk nid nvec nlvl nnbs) (List.mem_cons_self _ _) c hc).trans
            (List.map_id nvec)
        have ih' := ih fun e he => hf e (List.mem_cons_of_mem _ he)
        simpa [Node.make, hvec] using ih'

/-- C2 (amended): the source `fromJSON` rebuilds every vector through
`new Float32Array(node.vector)`, so the payload round-trips (and
`searchKNN` agrees on the restored graph for every query, `k` and
`efSearch` override) exactly for graphs all of whose stored vector
components are finite binary32 values — `f32`-fixpoints of magnitude
below `2^128`.  For any other component (e.g. `0.1`) the payload is
quantized and the recomputed scores differ; see the counterexample. -/
theorem snapshot_roundtrip {S : Type} [LinearOrder S] (sim : Vec → Vec → S)
    (g : HNSW) (q : Vec) (k : ℤ) (efOpt : Option ℕ)
    (hf : ∀ e ∈ g.nodes, ∀ c ∈ e.2.vector, f32 c = c ∧ |c| < (2 : ℚ) ^ 128) :
    fromJSON (toJSON g) = g
    ∧ searchKNN sim (fromJSON (toJSON g)) q k efOpt = searchKNN sim g q k efOpt := by
  have h := fromJSON_toJSON g fun e he c hc => (hf e he c hc).1
  refine ⟨h, ?_⟩
  rw [h]

/-- A reachable one-node graph whose stored vector component `0.1` (the
exact rational `1/10` standing for the JS numeral) is not a binary32
value. -/
def cexC2Graph : HNSW :=
  runInsertions euclideanSimilarity (HNSW.new 16 200 none Metric.euclidean 50)
    [(1, [0.1], 0)]

set_option maxRecDepth 8000 in
unseal Rat.add Rat.sub Rat.mul Rat.inv Rat.ofScientific in
/-- C2 counterexample: on the reachable graph holding the vector `[0.1]`,
`fromJSON (toJSON g)` is not `g` (the component is quantized to
`13421773 / 2^27`), and `searchKNN` for the query `[0]` with `k = 1`
returns a different score on the restored graph — the round-trip claim
fails both in payload and in results. -/
theorem snapshot_counterexample :
    fromJSON (toJSON cexC2Graph) ≠ cexC2Graph
    ∧ searchKNN euclideanSimilarity (fromJSON (toJSON cexC2Graph)) [0] 1 none
      ≠ searchKNN euclideanSimilarity cexC2Graph [0] 1 none := by
  decide

set_option maxRecDepth 8000 in
unseal Rat.add Rat.sub Rat.mul Rat.inv Rat.ofScientific in
/-- C2 witness: the three-node graph `pruneDemoGraph` stores only the
integer components `0`, `4`, `1` — binary32 values — so its snapshot
round-trips exactly and a concrete `k = 1` search agrees on the restored
graph. -/
theorem snapshot_roundtrip_witness :
    fromJSON (toJSON pruneDemoGraph) = pruneDemoGraph
    ∧ searchKNN euclideanSimilarity (fromJSON (toJSON pruneDemoGraph)) [2] 1 none
      = searchKNN euclideanSimilarity pruneDemoGraph [2] 1 none :=
  snapshot_roundtrip euclideanSimilarity pruneDemoGraph [2] 1 none (by decide)

/-! ## Frame lemmas: the connection helpers touch only `nodes` -/

/-- All fields except `nodes` agree (the connection helpers only rewrite
adjacency lists inside the node map). -/
def sameCfg (g g' : HNSW) : Prop :=
  g'.metric = g.metric ∧ g'.d = g.d ∧ g'.M = g.M
  ∧ g'.efConstruction = g.efConstruction ∧ g'.efSearch = g.efSearch
  ∧ g'.levelMax = g.levelMax ∧ g'.entryPointId = g.entryPointId

theorem sameCfg_refl (g : HNSW) : sameCfg g g :=
  ⟨rfl, rfl, rfl, rfl, rfl, rfl, rfl⟩

theorem sameCfg_trans {g₁ g₂ g₃ : HNSW} (h₁ : sameCfg g₁ g₂)
    (h₂ : sameCfg g₂ g₃) : sameCfg g₁ g₃ := by
  obtain ⟨a₁, b₁, c₁, d₁, e₁, f₁, i₁⟩ := h₁
  obtain ⟨a₂, b₂, c₂, d₂, e₂, f₂, i₂⟩ := h₂
  exact ⟨a₂.trans a₁, b₂.trans b₁, c₂.trans c₁, d₂.trans d₁, e₂.trans e₁,
    f₂.trans f₁, i₂.trans i₁⟩

theorem insertNeighbor_sameCfg {S : Type} [LinearOrder S] (sim : Vec → Vec → S)
    (g : HNSW) (nodeId neighborId : ℤ) (ℓ : ℕ) :
    sameCfg g (insertNeighbor sim g nodeId neighborId ℓ).1 := by
  unfold insertNeighbor
  rcases mapGet g.nodes nodeId with _ | node
  · exact sameCfg_refl g
  · exact ⟨rfl, rfl, rfl, rfl, rfl, rfl, rfl⟩

theorem removeReciprocalLinks_sameCfg (g : HNSW) (nodeId : ℤ)
    (removedIds : List ℤ) (ℓ : ℕ) :
    sameCfg g (removeReciprocalLinks g nodeId removedIds ℓ) := by
  unfold removeReciprocalLinks
  induction removedIds generalizing g with
  | nil => exact sameCfg_refl g
  | cons r rest ih =>
    rw [List.foldl_cons]
    by_cases hr : (mapGet g.nodes r).isSome
    · rw [if_pos hr]
      exact sameCfg_trans ⟨rfl, rfl, rfl, rfl, rfl, rfl, rfl⟩ (ih _)
    · rw [if_neg hr]
      exact ih g

theorem addBidirectionalConnection_sameCfg {S : Type} [LinearOrder S]
    (sim : Vec → Vec → S) (g : HNSW) (nodeId otherId : ℤ) (ℓ : ℕ) :
    sameCfg g (addBidirectionalConnection sim g nodeId otherId ℓ) := by
  unfold addBidirectionalConnection
  exact sameCfg_trans (insertNeighbor_sameCfg sim g nodeId otherId ℓ)
    (sameCfg_trans (insertNeighbor_sameCfg sim _ otherId nodeId ℓ)
      (sameCfg_trans (removeReciprocalLinks_sameCfg _ nodeId _ ℓ)
        (removeReciprocalLinks_sameCfg _ otherId _ ℓ)))

theorem connectNodeAtLevel_sameCfg {S : Type} [LinearOrder S]
    (sim : Vec → Vec → S) (g : HNSW) (node : Node) (candidates : List Node)
    (ℓ : ℕ) : sameCfg g (connectNodeAtLevel sim g node candidates ℓ) := by
  unfold connectNodeAtLevel
  generalize selectNeighborsHeuristic sim node candidates g.M = sel
  induction sel generalizing g with
  | nil => exact sameCfg_refl g
  | cons nb rest ih =>
    rw [List.foldl_cons]
    exact sameCfg_trans (addBidirectionalConnection_sameCfg sim g node.id nb.id ℓ)
      (ih _)

theorem connectLoop_sameCfg {S : Type} [LinearOrder S] (sim : Vec → Vec → S)
    (node : Node) (levels : List ℤ) :
    ∀ (g : HNSW) (entry : Node), sameCfg g (connectLoop sim node g entry levels) := by
  induction levels with
  | nil =>
    intro g entry
    exact sameCfg_refl g
  | cons ℓ rest ih =>
    intro g entry
    unfold connectLoop
    exact sameCfg_trans (connectNodeAtLevel_sameCfg sim g node _ ℓ.toNat) (ih _ _)

/-- `addNodeToGraph` preserves the configuration fields (`metric`, `d`,
`M`, `efConstruction`, `efSearch`); it may move `entryPointId`/`levelMax`. -/
theorem addNodeToGraph_cfg {S : Type} [LinearOrder S] (sim : Vec → Vec → S)
    (g : HNSW) (node : Node) :
    (addNodeToGraph sim g node).metric = g.metric
    ∧ (addNodeToGraph sim g node).d = g.d
    ∧ (addNodeToGraph sim g node).M = g.M
    ∧ (addNodeToGraph sim g node).efConstruction = g.efConstruction
    ∧ (addNodeToGraph sim g node).efSearch = g.efSearch := by
  unfold addNodeToGraph
  by_cases hempty : g.entryPointId = -1
  · rw [if_pos hempty]
    exact ⟨rfl, rfl, rfl, rfl, rfl⟩
  · rw [if_neg hempty]
    rcases mapGet g.nodes g.entryPointId with _ | entry₀
    · exact ⟨rfl, rfl, rfl, rfl, rfl⟩
    · dsimp only
      split
      all_goals
        exact ⟨(connectLoop_sameCfg sim node _ g _).1,
          (connectLoop_sameCfg sim node _ g _).2.1,
          (connectLoop_sameCfg sim node _ g _).2.2.1,
          (connectLoop_sameCfg sim node _ g _).2.2.2.1,
          (connectLoop_sameCfg sim node _ g _).2.2.2.2.1⟩

/-! ## Claim C8: `addPoint` preconditions -/

/-- A graph with one inserted point (id 1, one-dimensional vector), so that
`d = some 1` is set and id 1 is present: the state in which the two
`addPoint` failure conditions can overlap. -/
def cexC8Graph : HNSW :=
  runInsertions euclideanSimilarity (HNSW.new 16 200 none Metric.cosine 50)
    [(1, [0], 0)]

unseal Rat.add Rat.sub Rat.mul Rat.inv Rat.ofScientific in
/-- C8 counterexample: on a graph where id 1 is present and `d = 1`,
`addPoint(1, [0, 0])` has both a dimension mismatch and a duplicate id; the
code checks the dimension first and throws `DimensionMismatch`, not
`DuplicateId` — so "fails with a duplicate-id error exactly when id is
already present" is false. -/
theorem addPoint_error_counterexample :
    mapHas cexC8Graph.nodes 1 = true
    ∧ (addPoint euclideanSimilarity cexC8Graph 1 [0, 0] 0).2
        = some AddError.dimensionMismatch
    ∧ (addPoint euclideanSimilarity cexC8Graph 1 [0, 0] 0).2
        ≠ some AddError.duplicateId := by
  decide

/-- C8 (amended): `addPoint` fails with a dimension mismatch exactly when
`d` is set and the vector length differs; it fails with a duplicate-id
error exactly when the dimension check passes and the id is already
present (the dimension check runs first, so a call with both problems
reports the mismatch); otherwise it succeeds, and on success `d` is
`vector.length` (in particular when it was previously null). -/
theorem addPoint_error_spec {S : Type} [LinearOrder S] (sim : Vec → Vec → S)
    (g : HNSW) (id : ℤ) (vector : Vec) (lvl : ℕ) :
    ((addPoint sim g id vector lvl).2 = some AddError.dimensionMismatch
      ↔ ∃ dv, g.d = some dv ∧ vector.length ≠ dv)
    ∧ ((addPoint sim g id vector lvl).2 = some AddError.duplicateId
      ↔ (¬ ∃ dv, g.d = some dv ∧ vector.length ≠ dv) ∧ mapHas g.nodes id = true)
    ∧ ((addPoint sim g id vector lvl).2 = none
      ↔ (¬ ∃ dv, g.d = some dv ∧ vector.length ≠ dv) ∧ mapHas g.nodes id = false)
    ∧ ((addPoint sim g id vector lvl).2 = none →
      (addPoint sim g id vector lvl).1.d = some vector.length) := by
  rcases hd : g.d with _ | dv
  · by_cases hhas : mapHas g.nodes id
    · simp [addPoint, hd, hhas]
    · simp only [Bool.not_eq_true] at hhas
      simp [addPoint, hd, hhas, (addNodeToGraph_cfg sim _ _).2.1]
  · by_cases hlen : vector.length ≠ dv
    · simp [addPoint, hd, hlen]
    · by_cases hhas : mapHas g.nodes id
      · simp [addPoint, hd, hlen, hhas]
      · simp only [Bool.not_eq_true] at hhas
        simp [addPoint, hd, hlen, hhas, (addNodeToGraph_cfg sim _ _).2.1]

/-- C8 witness: inserting a fresh id with a matching dimension into
`cexC8Graph` succeeds and keeps `d = some 1`. -/
theorem addPoint_error_spec_witness :
    (addPoint euclideanSimilarity cexC8Graph 2 [5] 0).1.d = some 1 :=
  (addPoint_error_spec euclideanSimilarity cexC8Graph 2 [5] 0).2.2.2 (by decide)

/-! ## Claim C9: `buildIndex` -/

theorem jsModIsZero_pos (x intv : ℕ) (h : 0 < intv) :
    jsModIsZero x intv = decide (x % intv = 0) := by
  unfold jsModIsZero
  rw [if_neg (by omega)]

theorem jsModNeZero_pos (total intv : ℕ) (h : 0 < intv) :
    jsModNeZero total intv = decide (total % intv ≠ 0) := by
  unfold jsModNeZero
  rw [if_neg (by omega)]

theorem buildLoop_graph {S : Type} [LinearOrder S] (sim : Vec → Vec → S)
    (intv total : ℕ) (onP : Bool) :
    ∀ (items : List (ℤ × Vec × ℕ)) (g : HNSW) (i : ℕ) (calls : List (ℕ × ℕ)),
    (buildLoop sim intv total onP g items i calls).2.2 = none →
    (buildLoop sim intv total onP g items i calls).1
      = items.foldl (fun g p => (addPoint sim g p.1 p.2.1 p.2.2).1) g := by
  intro items
  induction items with
  | nil =>
    intro g i calls _
    rfl
  | cons x rest ih =>
    intro g i calls hok
    rcases x with ⟨id, vec, lvl⟩
    rcases herr : addPoint sim g id vec lvl with ⟨g', err⟩
    unfold buildLoop at hok ⊢
    rw [herr] at hok ⊢
    rcases err with _ | e
    · simp only [List.foldl_cons, herr]
      exact ih _ _ _ hok
    · simp at hok

theorem buildLoop_calls {S : Type} [LinearOrder S] (sim : Vec → Vec → S)
    (intv total : ℕ) (onP : Bool) (hpos : 0 < intv) :
    ∀ (items : List (ℤ × Vec × ℕ)) (g : HNSW) (i : ℕ) (calls : List (ℕ × ℕ)),
    (buildLoop sim intv total onP g items i calls).2.2 = none →
    (buildLoop sim intv total onP g items i calls).2.1
      = calls ++
        (if onP then
          ((List.range items.length).filterMap fun j =>
            if (i + j + 1) % intv = 0 then some (i + j + 1, total) else none)
          ++ (if total % intv ≠ 0 then [(total, total)] else [])
        else []) := by
  intro items
  induction items with
  | nil =>
    intro g i calls _
    unfold buildLoop
    rw [jsModNeZero_pos total intv hpos]
    rcases onP with _ | _
    · simp
    · simp only [Bool.true_and, if_true, List.range_zero, List.filterMap_nil,
        List.nil_append]
      by_cases hz : total % intv ≠ 0
      · simp [hz]
      · simp [hz]
  | cons x rest ih =>
    intro g i calls hok
    rcases x with ⟨id, vec, lvl⟩
    rcases herr : addPoint sim g id vec lvl with ⟨g', err⟩
    unfold buildLoop at hok ⊢
    rw [herr] at hok ⊢
    rcases err with _ | e
    · rw [ih _ _ _ hok]
      have hfun : ((fun j => if (i + j + 1) % intv = 0
            then some (i + j + 1, total) else none) ∘ Nat.succ)
          = fun j => if (i + 1 + j + 1) % intv = 0
            then some (i + 1 + j + 1, total) else none := by
        funext j
        simp only [Function.comp_apply, Nat.succ_eq_add_one]
        have harith : i + (j + 1) + 1 = i + 1 + j + 1 := by omega
        rw [harith]
      rcases onP with _ | _
      · simp
      · simp only [Bool.true_and, if_true]
        rw [jsModIsZero_pos _ intv hpos, List.length_cons,
          List.range_succ_eq_map, List.filterMap_cons, List.filterMap_map, hfun]
        have hzero : i + 0 + 1 = i + 1 := by omega
        rw [hzero]
        by_cases hz : (i + 1) % intv = 0
        · simp [hz, List.append_assoc]
        · simp [hz]
    · simp at hok

/-- C9: `buildIndex` first resets the graph (node map cleared,
`levelMax = -1`, `entryPointId` unset, `d = null`) and then inserts the
items of `data` in input order via `addPoint`; when a callback is supplied
(and the interval, default 10000, is positive) it is invoked with
`(current, total)` after every `progressInterval` insertions and once more
at completion when `total` is not a multiple of the interval. -/
theorem buildIndex_spec {S : Type} [LinearOrder S] (sim : Vec → Vec → S)
    (g : HNSW) (data : List (ℤ × Vec × ℕ)) (onP : Bool)
    (progressInterval : Option ℕ)
    (hok : (buildIndex sim g data onP progressInterval).2.2 = none)
    (hpos : 0 < progressInterval.getD 10000) :
    (buildIndex sim g data onP progressInterval).1
      = runInsertions sim
          { g with nodes := [], levelMax := -1, entryPointId := -1, d := none }
          data
    ∧ (buildIndex sim g data onP progressInterval).2.1
      = (if onP then
          ((List.range data.length).filterMap fun j =>
            if (j + 1) % progressInterval.getD 10000 = 0
            then some (j + 1, data.length) else none)
          ++ (if data.length % progressInterval.getD 10000 ≠ 0
              then [(data.length, data.length)] else [])
        else []) := by
  constructor
  · exact buildLoop_graph sim _ _ onP data _ 0 [] hok
  · have h := buildLoop_calls sim (progressInterval.getD 10000) data.length onP
      hpos data
      { g with nodes := [], levelMax := -1, entryPointId := -1, d := none }
      0 [] hok
    exact h.trans (by simp)

unseal Rat.add Rat.sub Rat.mul Rat.inv Rat.ofScientific in
/-- C9 witness: building three points over a stale graph with interval 2
resets the graph, inserts all three, and reports `(2, 3)` after the second
insertion plus a final `(3, 3)` because 3 is not a multiple of 2. -/
theorem buildIndex_spec_witness :
    (buildIndex euclideanSimilarity cexC8Graph
        [(7, [1], 0), (8, [2], 0), (9, [3], 0)] true (some 2)).1
      = runInsertions euclideanSimilarity
          { cexC8Graph with nodes := [], levelMax := -1, entryPointId := -1, d := none }
          [(7, [1], 0), (8, [2], 0), (9, [3], 0)]
    ∧ (buildIndex euclideanSimilarity cexC8Graph
        [(7, [1], 0), (8, [2], 0), (9, [3], 0)] true (some 2)).2.1
      = [(2, 3), (3, 3)] := by
  have h := buildIndex_spec euclideanSimilarity cexC8Graph
    [(7, [1], 0), (8, [2], 0), (9, [3], 0)] true (some 2) (by decide) (by decide)
  refine ⟨h.1, ?_⟩
  rw [h.2]
  decide

/-! ## Association-list lemmas -/

theorem modifyNb_keys (m : List (ℤ × Node)) (k : ℤ)
    (f : List (List ℤ) → List (List ℤ)) :
    (modifyNb m k f).map Prod.fst = m.map Prod.fst := by
  unfold modifyNb
  rw [List.map_map]
  refine List.map_congr_left ?_
  intro e _
  by_cases he : e.1 = k <;> simp [he]

theorem modifyNb_entries (m : List (ℤ × Node)) (k : ℤ)
    (f : List (List ℤ) → List (List ℤ)) :
    ∀ e ∈ modifyNb m k f, ∃ e₀ ∈ m, e.1 = e₀.1 ∧ e.2.id = e₀.2.id
      ∧ e.2.vector = e₀.2.vector ∧ e.2.level = e₀.2.level
      ∧ (e.2.neighbors = e₀.2.neighbors
        ∨ (e₀.1 = k ∧ e.2.neighbors = f e₀.2.neighbors)) := by
  intro e he
  rcases List.mem_map.mp he with ⟨e₀, he₀, heq⟩
  by_cases hk : e₀.1 = k
  · rw [if_pos (by simpa using hk)] at heq
    subst heq
    exact ⟨e₀, he₀, rfl, rfl, rfl, rfl, Or.inr ⟨hk, rfl⟩⟩
  · rw [if_neg (by simpa using hk)] at heq
    subst heq
    exact ⟨e₀, he₀, rfl, rfl, rfl, rfl, Or.inl rfl⟩

theorem mapGet_modifyNb (m : List (ℤ × Node)) (k : ℤ)
    (f : List (List ℤ) → List (List ℤ)) (k' : ℤ) :
    mapGet (modifyNb m k f) k'
      = (mapGet m k').map
          fun n => if k' = k then { n with neighbors := f n.neighbors } else n := by
  unfold modifyNb mapGet
  rw [List.find?_map]
  have hp : ((fun e : ℤ × Node => e.1 == k') ∘ fun e : ℤ × Node =>
        if e.1 == k then (e.1, { e.2 with neighbors := f e.2.neighbors }) else e)
      = fun e : ℤ × Node => e.1 == k' := by
    funext e
    by_cases hk : e.1 = k <;> simp [hk]
  rw [hp]
  rcases hf : m.find? (fun e : ℤ × Node => e.1 == k') with _ | e
  · rfl
  · have he' : e.1 = k' := by simpa using List.find?_some hf
    simp only [Option.map_some']
    by_cases hk : e.1 = k
    · rw [if_pos (show (e.1 == k) = true by simpa using hk),
        if_pos (he'.symm.trans hk)]
    · rw [if_neg (show ¬ (e.1 == k) = true by simpa using hk),
        if_neg fun hkk => hk (he'.trans hkk)]

theorem mapGet_mem (m : List (ℤ × Node)) (k : ℤ) (n : Node)
    (h : mapGet m k = some n) : (k, n) ∈ m := by
  unfold mapGet at h
  rcases hf : m.find? fun e => e.1 == k with _ | e <;> rw [hf] at h
  · exact absurd h (by simp)
  · simp only [Option.map_some', Option.some.injEq] at h
    have hm := List.mem_of_find?_eq_some hf
    have hp := List.find?_some hf
    simp only [beq_iff_eq] at hp
    have he : e = (k, n) := by
      rcases e with ⟨k₀, v⟩
      simp only at hp h
      rw [hp, h]
    rw [← he]
    exact hm

theorem mapGet_append (m₁ m₂ : List (ℤ × Node)) (k : ℤ) :
    mapGet (m₁ ++ m₂) k = (mapGet m₁ k).or (mapGet m₂ k) := by
  unfold mapGet
  rw [List.find?_append]
  rcases hf : m₁.find? fun e => e.1 == k with _ | e <;> rw [hf] <;> rfl

theorem mapGet_none_of_not_has (m : List (ℤ × Node)) (k : ℤ)
    (h : mapHas m k = false) : mapGet m k = none := by
  unfold mapHas at h
  unfold mapGet
  rcases hf : m.find? fun e => e.1 == k with _ | e
  · rw [hf]
    rfl
  · rw [hf] at h
    exact absurd h (by simp)

theorem mapSet_fresh (m : List (ℤ × Node)) (k : ℤ) (v : Node)
    (h : mapHas m k = false) : mapSet m k v = m ++ [(k, v)] := by
  unfold mapSet
  rw [h]
  rfl

theorem mapGet_singleton_same (k : ℤ) (v : Node) :
    mapGet [(k, v)] k = some v := by
  simp [mapGet]

/-! ## Claim C6: neighbour-list invariants for reachable graphs -/

/-- The three per-list invariants: capacity, no duplicates, no self-loop. -/
def nbOk (M : ℕ) (selfId : ℤ) (L : List ℤ) : Prop :=
  L.length ≤ M ∧ L.Nodup ∧ selfId ∉ L

/-- Every adjacency list of the node satisfies `nbOk`. -/
def NodeOk (M : ℕ) (n : Node) : Prop :=
  ∀ ℓ : ℕ, nbOk M n.id (getNb n.neighbors ℓ)

/-- The inductive invariant for claim C6: unique keys, key-id coherence,
and `NodeOk` for every stored node. -/
def NodesInv (g : HNSW) : Prop :=
  (g.nodes.map Prod.fst).Nodup
  ∧ ∀ e ∈ g.nodes, e.2.id = e.1 ∧ NodeOk g.M e.2

theorem nbOk_filter (M : ℕ) (i : ℤ) (L : List ℤ) (p : ℤ → Bool)
    (h : nbOk M i L) : nbOk M i (L.filter p) := by
  refine ⟨le_trans (List.length_filter_le p L) h.1, h.2.1.filter p, ?_⟩
  intro hmem
  exact h.2.2 (List.mem_of_mem_filter hmem)

theorem getNb_replicate (n ℓ : ℕ) : getNb (List.replicate n ([] : List ℤ)) ℓ = [] := by
  unfold getNb
  rw [List.getD_eq_getElem?_getD, List.getElem?_replicate]
  by_cases h : ℓ < n
  · rw [if_pos h]
    rfl
  · rw [if_neg h]
    rfl

theorem nbOk_nil (M : ℕ) (i : ℤ) : nbOk M i [] :=
  ⟨Nat.zero_le M, List.nodup_nil, List.not_mem_nil i⟩

theorem insertNeighbor_NodesInv {S : Type} [LinearOrder S] (sim : Vec → Vec → S)
    (g : HNSW) (a b : ℤ) (ℓ : ℕ) (h : NodesInv g) :
    NodesInv (insertNeighbor sim g a b ℓ).1 := by
  unfold insertNeighbor
  rcases hget : mapGet g.nodes a with _ | node
  · exact h
  · have hnodeId : node.id = a := (h.2 (a, node) (mapGet_mem _ _ _ hget)).1
    dsimp only
    refine ⟨?_, ?_⟩
    · rw [modifyNb_keys]
      exact h.1
    · intro e he
      have he' : e ∈ modifyNb g.nodes a fun nbs => setNb nbs ℓ
          (List.map Node.id (selectNeighborsHeuristic sim node
            (List.filterMap (mapGet g.nodes)
              (List.filter (fun i => decide (i ≠ b)) (getNb node.neighbors ℓ)
                ++ [b]))
            g.M)) := he
      rcases modifyNb_entries _ _ _ e he' with
        ⟨e₀, he₀, hkey, hid, _, _, hnbs⟩
      have h₀ := h.2 e₀ he₀
      refine ⟨hid.trans (h₀.1.trans hkey.symm), ?_⟩
      rcases hnbs with hnbs | ⟨hek, hnbs⟩
      · intro ℓ'
        rw [hnbs, hid]
        exact h₀.2 ℓ'
      · intro ℓ'
        simp only [hnbs]
        by_cases hℓ : ℓ' = ℓ
        · subst hℓ
          rw [getNb_setNb_same]
          have hidA : e.2.id = a := hid.trans (h₀.1.trans hek)
          rw [hidA]
          refine ⟨?_, heuristic_ids_nodup sim node _ g.M, ?_⟩
          · rw [List.length_map]
            exact heuristic_length sim node _ g.M
          · rw [← hnodeId]
            exact heuristic_no_pivot sim node _ g.M
        · rw [getNb_setNb_other _ _ _ _ hℓ, hid]
          exact h₀.2 ℓ'

theorem removeReciprocalLinks_NodesInv (g : HNSW) (a : ℤ)
    (removedIds : List ℤ) (ℓ : ℕ) (h : NodesInv g) :
    NodesInv (removeReciprocalLinks g a removedIds ℓ) := by
  unfold removeReciprocalLinks
  induction removedIds generalizing g with
  | nil => exact h
  | cons r rest ih =>
    rw [List.foldl_cons]
    by_cases hr : (mapGet g.nodes r).isSome
    · rw [if_pos hr]
      refine ih _ ⟨?_, ?_⟩
      · rw [modifyNb_keys]
        exact h.1
      · intro e he
        have he' : e ∈ modifyNb g.nodes r fun nbs => setNb nbs ℓ
            ((getNb nbs ℓ).filter fun i => i ≠ a) := he
        rcases modifyNb_entries _ _ _ e he' with
          ⟨e₀, he₀, hkey, hid, _, _, hnbs⟩
        have h₀ := h.2 e₀ he₀
        refine ⟨hid.trans (h₀.1.trans hkey.symm), ?_⟩
        rcases hnbs with hnbs | ⟨_, hnbs⟩
        · intro ℓ'
          rw [hnbs, hid]
          exact h₀.2 ℓ'
        · intro ℓ'
          simp only [hnbs]
          by_cases hℓ : ℓ' = ℓ
          · subst hℓ
            rw [getNb_setNb_same, hid]
            exact nbOk_filter _ _ _ _ (h₀.2 ℓ')
          · rw [getNb_setNb_other _ _ _ _ hℓ, hid]
            exact h₀.2 ℓ'
    · rw [if_neg hr]
      exact ih g h

theorem addBidirectionalConnection_NodesInv {S : Type} [LinearOrder S]
    (sim : Vec → Vec → S) (g : HNSW) (a b : ℤ) (ℓ : ℕ) (h : NodesInv g) :
    NodesInv (addBidirectionalConnection sim g a b ℓ) := by
  unfold addBidirectionalConnection
  exact removeReciprocalLinks_NodesInv _ _ _ _
    (removeReciprocalLinks_NodesInv _ _ _ _
      (insertNeighbor_NodesInv sim _ b a ℓ
        (insertNeighbor_NodesInv sim g a b ℓ h)))

theorem connectNodeAtLevel_NodesInv {S : Type} [LinearOrder S]
    (sim : Vec → Vec → S) (g : HNSW) (node : Node) (candidates : List Node)
    (ℓ : ℕ) (h : NodesInv g) :
    NodesInv (connectNodeAtLevel sim g node candidates ℓ) := by
  unfold connectNodeAtLevel
  generalize selectNeighborsHeuristic sim node candidates g.M = sel
  induction sel generalizing g with
  | nil => exact h
  | cons nb rest ih =>
    rw [List.foldl_cons]
    exact ih _ (addBidirectionalConnection_NodesInv sim g node.id nb.id ℓ h)

theorem connectLoop_NodesInv {S : Type} [LinearOrder S] (sim : Vec → Vec → S)
    (node : Node) (levels : List ℤ) :
    ∀ (g : HNSW) (entry : Node), NodesInv g →
    NodesInv (connectLoop sim node g entry levels) := by
  induction levels with
  | nil =>
    intro g entry h
    exact h
  | cons ℓ rest ih =>
    intro g entry h
    unfold connectLoop
    exact ih _ _ (connectNodeAtLevel_NodesInv sim g node _ ℓ.toNat h)

theorem addNodeToGraph_NodesInv {S : Type} [LinearOrder S]
    (sim : Vec → Vec → S) (g : HNSW) (node : Node) (h : NodesInv g) :
    NodesInv (addNodeToGraph sim g node) := by
  unfold addNodeToGraph
  by_cases hempty : g.entryPointId = -1
  · rw [if_pos hempty]
    exact h
  · rw [if_neg hempty]
    rcases mapGet g.nodes g.entryPointId with _ | entry₀
    · exact h
    · dsimp only
      split
      · exact connectLoop_NodesInv sim node _ g _ h
      · exact connectLoop_NodesInv sim node _ g _ h

theorem addPoint_NodesInv {S : Type} [LinearOrder S] (sim : Vec → Vec → S)
    (g : HNSW) (id : ℤ) (vector : Vec) (lvl : ℕ) (h : NodesInv g) :
    NodesInv (addPoint sim g id vector lvl).1 := by
  unfold addPoint
  by_cases hdim : (match g.d with
    | some dv => decide (vector.length ≠ dv)
    | none => false) = true
  · rw [if_pos hdim]
    exact h
  · rw [if_neg hdim]
    dsimp only
    by_cases hhas : mapHas g.nodes id
    · rw [if_pos hhas]
      exact h
    · rw [if_neg hhas]
      refine addNodeToGraph_NodesInv sim _ _ ?_
      rw [mapSet_fresh _ _ _ (by simpa using hhas)]
      refine ⟨?_, ?_⟩
      · rw [List.map_append]
        refine List.Nodup.append h.1 (by simp) ?_
        intro x hx hx'
        simp only [List.map_cons, List.map_nil, List.mem_singleton] at hx'
        rw [hx'] at hx
        rcases List.mem_map.mp hx with ⟨e, he, hkey⟩
        have hfind := mapGet_none_of_not_has g.nodes id (by simpa using hhas)
        unfold mapGet at hfind
        rcases hf : g.nodes.find? fun e => e.1 == id with _ | e'
        · rw [List.find?_eq_none] at hf
          exact hf e he (by simpa using hkey)
        · rw [hf] at hfind
          exact absurd hfind (by simp)
      · intro e he
        rcases List.mem_append.mp he with he | he
        · exact h.2 e he
        · simp only [List.mem_singleton] at he
          subst he
          refine ⟨rfl, ?_⟩
          intro ℓ'
          unfold Node.make
          rw [getNb_replicate]
          exact nbOk_nil _ _

theorem runInsertions_NodesInv {S : Type} [LinearOrder S] (sim : Vec → Vec → S)
    (ps : List (ℤ × Vec × ℕ)) :
    ∀ (g : HNSW), NodesInv g → NodesInv (runInsertions sim g ps) := by
  induction ps with
  | nil =>
    intro g h
    exact h
  | cons p rest ih =>
    intro g h
    unfold runInsertions at ih ⊢
    rw [List.foldl_cons]
    exact ih _ (addPoint_NodesInv sim g p.1 p.2.1 p.2.2 h)

theorem runInsertions_M {S : Type} [LinearOrder S] (sim : Vec → Vec → S)
    (ps : List (ℤ × Vec × ℕ)) :
    ∀ g : HNSW, (runInsertions sim g ps).M = g.M := by
  induction ps with
  | nil =>
    intro g
    rfl
  | cons p rest ih =>
    intro g
    unfold runInsertions at ih ⊢
    rw [List.foldl_cons, ih]
    unfold addPoint
    by_cases hdim : (match g.d with
      | some dv => decide (p.2.1.length ≠ dv)
      | none => false) = true
    · rw [if_pos hdim]
    · rw [if_neg hdim]
      dsimp only
      by_cases hhas : mapHas g.nodes p.1
      · rw [if_pos hhas]
      · rw [if_neg hhas]
        exact (addNodeToGraph_cfg sim _ _).2.2.1

/-- C6: in every graph reachable by `addPoint` calls from a fresh graph,
every node's layer-`ℓ` adjacency list (for `ℓ ≤` the node's level — in fact
for every `ℓ`) has at most `M` entries, no duplicates, and no self-loop. -/
theorem reachable_neighbor_lists {S : Type} [LinearOrder S]
    (sim : Vec → Vec → S) (M efC : ℕ) (d : Option ℕ) (metric : Metric)
    (efS : ℕ) (ps : List (ℤ × Vec × ℕ)) :
    ∀ e ∈ (runInsertions sim (HNSW.new M efC d metric efS) ps).nodes,
    ∀ ℓ : ℕ, ℓ ≤ e.2.level →
      (getNb e.2.neighbors ℓ).length ≤ M
      ∧ (getNb e.2.neighbors ℓ).Nodup
      ∧ e.2.id ∉ getNb e.2.neighbors ℓ := by
  intro e he ℓ _
  have hinv := runInsertions_NodesInv sim ps (HNSW.new M efC d metric efS)
    ⟨by simp [HNSW.new], by simp [HNSW.new]⟩
  have hM := runInsertions_M sim ps (HNSW.new M efC d metric efS)
  have h := (hinv.2 e he).2 ℓ
  rw [hM] at h
  exact h

unseal Rat.add Rat.sub Rat.mul Rat.inv Rat.ofScientific in
/-- C6 witness: in the concrete four-point build (`M = 2`), node 1's
layer-0 list `[2, 3]` has length ≤ 2, no duplicates, and no self-loop. -/
theorem reachable_neighbor_lists_witness :
    (getNb (Node.mk 1 [2, 0] 0 [[2, 3]]).neighbors 0).length ≤ 2
    ∧ (getNb (Node.mk 1 [2, 0] 0 [[2, 3]]).neighbors 0).Nodup
    ∧ (Node.mk 1 [2, 0] 0 [[2, 3]]).id ∉
        getNb (Node.mk 1 [2, 0] 0 [[2, 3]]).neighbors 0 :=
  reachable_neighbor_lists euclideanSimilarity 2 200 none Metric.euclidean 50
    [(1, [2, 0], 0), (2, [3, 1], 0), (3, [3, -1], 0), (4, [0, 0], 0)]
    (1, Node.mk 1 [2, 0] 0 [[2, 3]]) (by decide) 0 (by decide)

/-! ## Claim C1: adjacency symmetry and reciprocal-link repair -/

/-- One step of the `removeReciprocalLinks` fold clears `nodeId` from the
layer-`ℓ` list of the processed key, and keeps it cleared elsewhere. -/
theorem stepRRL_clears (g : HNSW) (nodeId : ℤ) (ℓ : ℕ) (r r' : ℤ)
    (h : r = r'
      ∨ ∀ n, mapGet g.nodes r = some n → nodeId ∉ getNb n.neighbors ℓ) :
    ∀ m, mapGet (if (mapGet g.nodes r').isSome then
        { g with nodes := modifyNb g.nodes r' fun nbs =>
            setNb nbs ℓ ((getNb nbs ℓ).filter fun i => i ≠ nodeId) }
      else g).nodes r = some m → nodeId ∉ getNb m.neighbors ℓ := by
  intro m hm
  by_cases hsome : (mapGet g.nodes r').isSome
  · rw [if_pos hsome] at hm
    have hm' : mapGet (modifyNb g.nodes r' fun nbs =>
        setNb nbs ℓ ((getNb nbs ℓ).filter fun i => i ≠ nodeId)) r = some m := hm
    rw [mapGet_modifyNb] at hm'
    rcases hg : mapGet g.nodes r with _ | n₀
    · rw [hg] at hm'
      exact absurd hm' (by simp)
    · rw [hg] at hm'
      simp only [Option.map_some', Option.some.injEq] at hm'
      by_cases hrr : r = r'
      · rw [if_pos hrr] at hm'
        rw [← hm']
        show nodeId ∉ getNb (setNb n₀.neighbors ℓ
          ((getNb n₀.neighbors ℓ).filter fun i => i ≠ nodeId)) ℓ
        rw [getNb_setNb_same]
        simp
      · rw [if_neg hrr] at hm'
        rcases h with h | h
        · exact absurd h hrr
        · rw [← hm']
          exact h n₀ hg
  · rw [if_neg hsome] at hm
    rcases h with h | h
    · subst h
      exact absurd (by rw [hm]; rfl) hsome
    · exact h m hm

/-- After `removeReciprocalLinks g nodeId removedIds ℓ`, every key in
`removedIds` that still resolves no longer lists `nodeId` at layer `ℓ`
(and the property, once true of a key, is preserved by the fold). -/
theorem removeReciprocalLinks_clears (nodeId : ℤ) (ℓ : ℕ) (r : ℤ)
    (removedIds : List ℤ) :
    ∀ g : HNSW,
      (r ∈ removedIds
        ∨ ∀ n, mapGet g.nodes r = some n → nodeId ∉ getNb n.neighbors ℓ) →
      ∀ n, mapGet (removeReciprocalLinks g nodeId removedIds ℓ).nodes r = some n →
        nodeId ∉ getNb n.neighbors ℓ := by
  unfold removeReciprocalLinks
  induction removedIds with
  | nil =>
    intro g h n hn
    rcases h with h | h
    · exact absurd h (List.not_mem_nil r)
    · exact h n hn
  | cons r' rest ih =>
    intro g h n hn
    rw [List.foldl_cons] at hn
    refine ih _ ?_ n hn
    rcases h with h | h
    · rcases List.mem_cons.mp h with heq | hrest
      · exact Or.inr (stepRRL_clears g nodeId ℓ r r' (Or.inl heq))
      · exact Or.inl hrest
    · exact Or.inr (stepRRL_clears g nodeId ℓ r r' (Or.inr h))

/-- One fold step of a later `removeReciprocalLinks` call (removing `b`)
cannot re-introduce a previously cleared id `a`: it only filters lists. -/
theorem stepRRL_keeps (g : HNSW) (a b : ℤ) (ℓ : ℕ) (r r' : ℤ)
    (h : ∀ n, mapGet g.nodes r = some n → a ∉ getNb n.neighbors ℓ) :
    ∀ m, mapGet (if (mapGet g.nodes r').isSome then
        { g with nodes := modifyNb g.nodes r' fun nbs =>
            setNb nbs ℓ ((getNb nbs ℓ).filter fun i => i ≠ b) }
      else g).nodes r = some m → a ∉ getNb m.neighbors ℓ := by
  intro m hm
  by_cases hsome : (mapGet g.nodes r').isSome
  · rw [if_pos hsome] at hm
    have hm' : mapGet (modifyNb g.nodes r' fun nbs =>
        setNb nbs ℓ ((getNb nbs ℓ).filter fun i => i ≠ b)) r = some m := hm
    rw [mapGet_modifyNb] at hm'
    rcases hg : mapGet g.nodes r with _ | n₀
    · rw [hg] at hm'
      exact absurd hm' (by simp)
    · rw [hg] at hm'
      simp only [Option.map_some', Option.some.injEq] at hm'
      by_cases hrr : r = r'
      · rw [if_pos hrr] at hm'
        rw [← hm']
        show a ∉ getNb (setNb n₀.neighbors ℓ
          ((getNb n₀.neighbors ℓ).filter fun i => i ≠ b)) ℓ
        rw [getNb_setNb_same]
        intro hmem
        exact h n₀ hg (List.mem_of_mem_filter hmem)
      · rw [if_neg hrr] at hm'
        rw [← hm']
        exact h n₀ hg
  · rw [if_neg hsome] at hm
    exact h m hm

/-- A whole later `removeReciprocalLinks` call preserves a cleared id. -/
theorem removeReciprocalLinks_keeps (a b : ℤ) (ℓ : ℕ) (ids : List ℤ) (r : ℤ) :
    ∀ g : HNSW,
      (∀ n, mapGet g.nodes r = some n → a ∉ getNb n.neighbors ℓ) →
      ∀ n, mapGet (removeReciprocalLinks g b ids ℓ).nodes r = some n →
        a ∉ getNb n.neighbors ℓ := by
  unfold removeReciprocalLinks
  induction ids with
  | nil =>
    intro g h n hn
    exact h n hn
  | cons r' rest ih =>
    intro g h n hn
    rw [List.foldl_cons] at hn
    exact ih _ (stepRRL_keeps g a b ℓ r r' h) n hn

/-- C1 (amended): adjacency symmetry does NOT hold for every reachable
graph (see the counterexample: the euclidean four-point build leaves the
one-directional edge `4 → 1`, because a node rejected by the other side's
capped heuristic is never offered a back-pointer).  What the code does
guarantee is the local repair the source performs: when
`addBidirectionalConnection` installs the edge `a`–`b` at layer `ℓ`, every
id dropped from `a`'s list loses its back-pointer to `a`, and every id
dropped from `b`'s list loses its back-pointer to `b`, in the final graph. -/
theorem addBidirectionalConnection_removes_reciprocal {S : Type} [LinearOrder S]
    (sim : Vec → Vec → S) (g : HNSW) (a b : ℤ) (ℓ : ℕ) :
    (∀ r ∈ (insertNeighbor sim g a b ℓ).2, ∀ n,
        mapGet (addBidirectionalConnection sim g a b ℓ).nodes r = some n →
        a ∉ getNb n.neighbors ℓ)
    ∧ ∀ r ∈ (insertNeighbor sim (insertNeighbor sim g a b ℓ).1 b a ℓ).2, ∀ n,
        mapGet (addBidirectionalConnection sim g a b ℓ).nodes r = some n →
        b ∉ getNb n.neighbors ℓ := by
  unfold addBidirectionalConnection
  constructor
  · intro r hr n hn
    exact removeReciprocalLinks_keeps a b ℓ _ r _
      (removeReciprocalLinks_clears a ℓ r _ _ (Or.inl hr)) n hn
  · intro r hr n hn
    exact removeReciprocalLinks_clears b ℓ r _ _ (Or.inl hr) n hn

unseal Rat.add Rat.sub Rat.mul Rat.inv Rat.ofScientific in
/-- C1 witness: in `pruneDemoGraph`, installing the edge 1–3 drops node 2
from node 1's layer-0 list (the heuristic keeps only the closer node 3),
and the repair removes node 2's back-pointer: its final state is
`Node.mk 2 [4] 0 [[]]`, whose layer-0 list no longer contains 1. -/
theorem addBidirectionalConnection_removes_reciprocal_witness :
    (1 : ℤ) ∉ getNb (Node.mk 2 [4] 0 [[]]).neighbors 0 :=
  (addBidirectionalConnection_removes_reciprocal euclideanSimilarity
      pruneDemoGraph 1 3 0).1
    2 (by decide) (Node.mk 2 [4] 0 [[]]) (by decide)

unseal Rat.add Rat.sub Rat.mul Rat.inv Rat.ofScientific in
/-- C1 counterexample: in the four-point euclidean build `cexC1Graph`
(`M = 2`, all levels drawn 0), node 4 lists node 1 at layer 0 but node 1
does not list node 4 — the symmetry invariant fails on a reachable graph. -/
theorem symmetry_counterexample :
    (1 : ℤ) ∈ nbrsOf cexC1Graph 4 0 ∧ (4 : ℤ) ∉ nbrsOf cexC1Graph 1 0 := by
  decide

/-! ## Claim C7: entry point and maximum level -/

/-- The connection helpers never change a stored node's level: lookups
return nodes of the same level, and every entry of the updated map descends
from an entry of the original map with the same level. -/
def nodesLv (g g' : HNSW) : Prop :=
  (∀ k, (mapGet g'.nodes k).map Node.level = (mapGet g.nodes k).map Node.level)
  ∧ ∀ e ∈ g'.nodes, ∃ e₀ ∈ g.nodes, e.2.level = e₀.2.level

theorem nodesLv_refl (g : HNSW) : nodesLv g g :=
  ⟨fun _ => rfl, fun e he => ⟨e, he, rfl⟩⟩

theorem nodesLv_trans {g₁ g₂ g₃ : HNSW} (h₁ : nodesLv g₁ g₂)
    (h₂ : nodesLv g₂ g₃) : nodesLv g₁ g₃ := by
  refine ⟨fun k => (h₂.1 k).trans (h₁.1 k), ?_⟩
  intro e he
  obtain ⟨e₁, he₁, hl₁⟩ := h₂.2 e he
  obtain ⟨e₀, he₀, hl₀⟩ := h₁.2 e₁ he₁
  exact ⟨e₀, he₀, hl₁.trans hl₀⟩

theorem nodesLv_modifyNb (g : HNSW) (k : ℤ)
    (f : List (List ℤ) → List (List ℤ)) :
    nodesLv g { g with nodes := modifyNb g.nodes k f } := by
  constructor
  · intro k'
    show (mapGet (modifyNb g.nodes k f) k').map Node.level
      = (mapGet g.nodes k').map Node.level
    rw [mapGet_modifyNb]
    rcases mapGet g.nodes k' with _ | n
    · rfl
    · by_cases h : k' = k <;> simp [h]
  · intro e he
    have he' : e ∈ modifyNb g.nodes k f := he
    obtain ⟨e₀, he₀, _, _, _, hl, _⟩ := modifyNb_entries g.nodes k f e he'
    exact ⟨e₀, he₀, hl⟩

theorem insertNeighbor_nodesLv {S : Type} [LinearOrder S] (sim : Vec → Vec → S)
    (g : HNSW) (a b : ℤ) (ℓ : ℕ) : nodesLv g (insertNeighbor sim g a b ℓ).1 := by
  unfold insertNeighbor
  rcases mapGet g.nodes a with _ | node
  · exact nodesLv_refl g
  · exact nodesLv_modifyNb g a _

theorem removeReciprocalLinks_nodesLv (g : HNSW) (a : ℤ)
    (removedIds : List ℤ) (ℓ : ℕ) :
    nodesLv g (removeReciprocalLinks g a removedIds ℓ) := by
  unfold removeReciprocalLinks
  induction removedIds generalizing g with
  | nil => exact nodesLv_refl g
  | cons r rest ih =>
    rw [List.foldl_cons]
    by_cases hr : (mapGet g.nodes r).isSome
    · rw [if_pos hr]
      exact nodesLv_trans (nodesLv_modifyNb g r _) (ih _)
    · rw [if_neg hr]
      exact ih g

theorem addBidirectionalConnection_nodesLv {S : Type} [LinearOrder S]
    (sim : Vec → Vec → S) (g : HNSW) (a b : ℤ) (ℓ : ℕ) :
    nodesLv g (addBidirectionalConnection sim g a b ℓ) := by
  unfold addBidirectionalConnection
  exact nodesLv_trans (insertNeighbor_nodesLv sim g a b ℓ)
    (nodesLv_trans (insertNeighbor_nodesLv sim _ b a ℓ)
      (nodesLv_trans (removeReciprocalLinks_nodesLv _ a _ ℓ)
        (removeReciprocalLinks_nodesLv _ b _ ℓ)))

theorem connectNodeAtLevel_nodesLv {S : Type} [LinearOrder S]
    (sim : Vec → Vec → S) (g : HNSW) (node : Node) (candidates : List Node)
    (ℓ : ℕ) : nodesLv g (connectNodeAtLevel sim g node candidates ℓ) := by
  unfold connectNodeAtLevel
  generalize selectNeighborsHeuristic sim node candidates g.M = sel
  induction sel generalizing g with
  | nil => exact nodesLv_refl g
  | cons nb rest ih =>
    rw [List.foldl_cons]
    exact nodesLv_trans (addBidirectionalConnection_nodesLv sim g node.id nb.id ℓ)
      (ih _)

theorem connectLoop_nodesLv {S : Type} [LinearOrder S] (sim : Vec → Vec → S)
    (node : Node) (levels : List ℤ) :
    ∀ (g : HNSW) (entry : Node), nodesLv g (connectLoop sim node g entry levels) := by
  induction levels with
  | nil =>
    intro g entry
    exact nodesLv_refl g
  | cons ℓ rest ih =>
    intro g entry
    unfold connectLoop
    exact nodesLv_trans (connectNodeAtLevel_nodesLv sim g node _ ℓ.toNat) (ih _ _)

/-- The inductive invariant for claim C7: the sentinel entry point occurs
only in the empty graph, a set entry point names a stored node whose level
is `levelMax`, and no stored node's level exceeds `levelMax`. -/
def EntryInv (g : HNSW) : Prop :=
  (g.entryPointId = -1 → g.nodes = [])
  ∧ (g.entryPointId ≠ -1 →
      ∃ n, mapGet g.nodes g.entryPointId = some n ∧ (n.level : ℤ) = g.levelMax)
  ∧ ∀ e ∈ g.nodes, (e.2.level : ℤ) ≤ g.levelMax

theorem addNodeToGraph_EntryInv {S : Type} [LinearOrder S] (sim : Vec → Vec → S)
    (g : HNSW) (node : Node) (hid : node.id ≠ -1)
    (hget : mapGet g.nodes node.id = some node)
    (hemp : g.entryPointId = -1 → ∀ e ∈ g.nodes, e.2.level = node.level)
    (hset : g.entryPointId ≠ -1 →
      ∃ n, mapGet g.nodes g.entryPointId = some n ∧ (n.level : ℤ) = g.levelMax)
    (hlev : ∀ e ∈ g.nodes, e.2.level = node.level ∨ (e.2.level : ℤ) ≤ g.levelMax) :
    EntryInv (addNodeToGraph sim g node) := by
  unfold addNodeToGraph
  by_cases hempty : g.entryPointId = -1
  · rw [if_pos hempty]
    refine ⟨fun hq => absurd hq hid, fun _ => ⟨node, hget, rfl⟩, ?_⟩
    intro e he
    rw [hemp hempty e he]
  · rw [if_neg hempty]
    obtain ⟨n₀, hn₀, hl₀⟩ := hset hempty
    rcases hE : mapGet g.nodes g.entryPointId with _ | entry₀
    · rw [hE] at hn₀
      exact absurd hn₀ (by simp)
    · dsimp only
      have key : ∀ (entry : Node) (lvls : List ℤ),
          EntryInv
            (if (node.level : ℤ) > (connectLoop sim node g entry lvls).levelMax
              then { connectLoop sim node g entry lvls with
                entryPointId := node.id, levelMax := (node.level : ℤ) }
              else connectLoop sim node g entry lvls) := by
        intro entry lvls
        have hcfg : sameCfg g (connectLoop sim node g entry lvls) :=
          connectLoop_sameCfg sim node lvls g entry
        have hlvp : nodesLv g (connectLoop sim node g entry lvls) :=
          connectLoop_nodesLv sim node lvls g entry
        set gc := connectLoop sim node g entry lvls with hgc
        by_cases hgt : (node.level : ℤ) > gc.levelMax
        · rw [if_pos hgt]
          refine ⟨fun hq => absurd hq hid, fun _ => ?_, ?_⟩
          · have hmap := hlvp.1 node.id
            rw [hget] at hmap
            rcases hg' : mapGet gc.nodes node.id with _ | n
            · rw [hg'] at hmap
              exact absurd hmap (by simp)
            · rw [hg'] at hmap
              simp only [Option.map_some', Option.some.injEq] at hmap
              exact ⟨n, rfl, by rw [hmap]⟩
          · intro e he
            obtain ⟨e₀, he₀, hlev'⟩ := hlvp.2 e he
            rcases hlev e₀ he₀ with hh | hh
            · rw [hlev', hh]
            · rw [hlev']
              refine le_of_lt (lt_of_le_of_lt hh ?_)
              rw [← hcfg.2.2.2.2.2.1]
              exact hgt
        · rw [if_neg hgt]
          refine ⟨?_, fun _ => ?_, ?_⟩
          · intro hq
            rw [hcfg.2.2.2.2.2.2] at hq
            exact absurd hq hempty
          · have hmap := hlvp.1 g.entryPointId
            rw [hn₀] at hmap
            rcases hg' : mapGet gc.nodes g.entryPointId with _ | n
            · rw [hg'] at hmap
              exact absurd hmap (by simp)
            · rw [hg'] at hmap
              simp only [Option.map_some', Option.some.injEq] at hmap
              refine ⟨n, ?_, ?_⟩
              · rw [hcfg.2.2.2.2.2.2]
                exact hg'
              · rw [hmap, hcfg.2.2.2.2.2.1]
                exact hl₀
          · intro e he
            obtain ⟨e₀, he₀, hlev'⟩ := hlvp.2 e he
            rcases hlev e₀ he₀ with hh | hh
            · rw [hlev', hh]
              exact not_lt.mp hgt
            · rw [hlev', hcfg.2.2.2.2.2.1]
              exact hh
      exact key _ _

theorem addPoint_EntryInv {S : Type} [LinearOrder S] (sim : Vec → Vec → S)
    (g : HNSW) (id : ℤ) (vector : Vec) (lvl : ℕ) (hid : id ≠ -1)
    (h : EntryInv g) : EntryInv (addPoint sim g id vector lvl).1 := by
  unfold addPoint
  by_cases hdim : (match g.d with
    | some dv => decide (vector.length ≠ dv)
    | none => false) = true
  · rw [if_pos hdim]
    exact h
  · rw [if_neg hdim]
    dsimp only
    by_cases hhas : mapHas g.nodes id
    · rw [if_pos hhas]
      exact h
    · rw [if_neg hhas]
      have hfresh : mapSet g.nodes id (Node.make id vector lvl)
          = g.nodes ++ [(id, Node.make id vector lvl)] :=
        mapSet_fresh _ _ _ (by simpa using hhas)
      have hgetid : mapGet (mapSet g.nodes id (Node.make id vector lvl)) id
          = some (Node.make id vector lvl) := by
        rw [hfresh, mapGet_append, mapGet_none_of_not_has g.nodes id
          (by simpa using hhas), mapGet_singleton_same]
        rfl
      refine addNodeToGraph_EntryInv sim _ _ hid hgetid ?_ ?_ ?_
      · intro hempty e he
        have he' : e ∈ mapSet g.nodes id (Node.make id vector lvl) := he
        rw [hfresh, h.1 hempty] at he'
        simp only [List.nil_append, List.mem_singleton] at he'
        rw [he']
      · intro hne
        obtain ⟨n₀, hn₀, hl₀⟩ := h.2.1 hne
        refine ⟨n₀, ?_, hl₀⟩
        show mapGet (mapSet g.nodes id (Node.make id vector lvl)) g.entryPointId
          = some n₀
        rw [hfresh, mapGet_append, hn₀]
        rfl
      · intro e he
        have he' : e ∈ g.nodes ++ [(id, Node.make id vector lvl)] := by
          rw [← hfresh]
          exact he
        rcases List.mem_append.mp he' with hg | hone
        · exact Or.inr (h.2.2 e hg)
        · simp only [List.mem_singleton] at hone
          rw [hone]
          exact Or.inl rfl

theorem runInsertions_EntryInv {S : Type} [LinearOrder S] (sim : Vec → Vec → S)
    (ps : List (ℤ × Vec × ℕ)) :
    (∀ p ∈ ps, p.1 ≠ -1) →
    ∀ g : HNSW, EntryInv g → EntryInv (runInsertions sim g ps) := by
  induction ps with
  | nil =>
    intro _ g h
    exact h
  | cons p rest ih =>
    intro hids g h
    unfold runInsertions at ih ⊢
    rw [List.foldl_cons]
    exact ih (fun q hq => hids q (List.mem_cons_of_mem p hq)) _
      (addPoint_EntryInv sim g p.1 p.2.1 p.2.2 (hids p (List.mem_cons_self p rest)) h)

/-- C7 (amended): in every graph reachable by `addPoint` calls from a fresh
graph, provided no inserted id equals the sentinel `-1`: whenever
`entryPointId` is set (`≠ -1`) it names a stored node whose level equals
`levelMax`, and no stored node's level exceeds `levelMax`.  (An inserted id
`-1` collides with the unset sentinel and lets a later insertion reset
`levelMax` below an existing node's level; see the counterexample.) -/
theorem entry_point_invariant {S : Type} [LinearOrder S] (sim : Vec → Vec → S)
    (M efC : ℕ) (d : Option ℕ) (metric : Metric) (efS : ℕ)
    (ps : List (ℤ × Vec × ℕ)) (hids : ∀ p ∈ ps, p.1 ≠ -1) :
    ((runInsertions sim (HNSW.new M efC d metric efS) ps).entryPointId ≠ -1 →
      ∃ n, mapGet (runInsertions sim (HNSW.new M efC d metric efS) ps).nodes
          (runInsertions sim (HNSW.new M efC d metric efS) ps).entryPointId = some n
        ∧ (n.level : ℤ) = (runInsertions sim (HNSW.new M efC d metric efS) ps).levelMax)
    ∧ ∀ e ∈ (runInsertions sim (HNSW.new M efC d metric efS) ps).nodes,
        (e.2.level : ℤ) ≤ (runInsertions sim (HNSW.new M efC d metric efS) ps).levelMax := by
  have h := runInsertions_EntryInv sim ps hids (HNSW.new M efC d metric efS)
    ⟨fun _ => rfl, fun hne => absurd rfl hne,
      fun e he => absurd he (List.not_mem_nil e)⟩
  exact ⟨h.2.1, h.2.2⟩

unseal Rat.add Rat.sub Rat.mul Rat.inv Rat.ofScientific in
/-- C7 witness: in the concrete two-point build (id 5 at level 1, id 6 at
level 0), the stored node 5 — final adjacency `[[6], []]` — has level
`1 ≤ levelMax`. -/
theorem entry_point_invariant_witness :
    ((Node.mk 5 [0] 1 [[6], []]).level : ℤ)
      ≤ (runInsertions euclideanSimilarity (HNSW.new 2 200 none Metric.euclidean 50)
          [(5, [0], 1), (6, [1], 0)]).levelMax :=
  (entry_point_invariant euclideanSimilarity 2 200 none Metric.euclidean 50
      [(5, [0], 1), (6, [1], 0)] (by decide)).2
    (5, Node.mk 5 [0] 1 [[6], []]) (by decide)

unseal Rat.add Rat.sub Rat.mul Rat.inv Rat.ofScientific in
/-- C7 counterexample: inserting id `-1` at level 1 and then id 2 at level 0
leaves node `-1` (level 1) in a graph whose `levelMax` is 0 — the inserted
id `-1` is indistinguishable from the unset sentinel, so the second
insertion restarts the graph bookkeeping. -/
theorem entry_point_counterexample :
    ¬ ∀ e ∈ (runInsertions euclideanSimilarity
        (HNSW.new 2 200 none Metric.euclidean 50) [(-1, [0], 1), (2, [1], 0)]).nodes,
      (e.2.level : ℤ) ≤ (runInsertions euclideanSimilarity
        (HNSW.new 2 200 none Metric.euclidean 50) [(-1, [0], 1), (2, [1], 0)]).levelMax := by
  decide

/-! ## Claim C5: `searchKNN` result shape -/

/-- Every entry the layer-search expansion puts into the `best` heap stores
the score of its own node against the query. -/
theorem slExpand_scores {S : Type} [LinearOrder S] (sim : Vec → Vec → S)
    (g : HNSW) (q : Vec) (ef : ℕ)
    (st : List ℤ × List (SC S) × List (SC S)) (nid : ℤ)
    (hbest : ∀ e ∈ st.2.2, e.score = sim q e.node.vector) :
    ∀ e ∈ (slExpand sim g q ef st nid).2.2, e.score = sim q e.node.vector := by
  rcases st with ⟨visited, cands, best⟩
  unfold slExpand
  by_cases hv : visited.contains nid
  · simp only [hv, if_true]
    exact hbest
  · simp only [hv, if_false]
    rcases mapGet g.nodes nid with _ | nn
    · exact hbest
    · by_cases hadm : (best.length < ef ||
        (match heapPeek best with
         | none => true
         | some w => decide (w.score < sim q nn.vector))) = true
      · simp only [hadm, if_true]
        intro e he
        by_cases hover : ef < (heapPush bestPos best ⟨nn, sim q nn.vector⟩).length
        · simp only [hover, if_true] at he
          have he' := heapPop_subset bestPos _ _ he
          rcases heapPush_subset bestPos best ⟨nn, sim q nn.vector⟩ e he' with h | h
          · exact hbest e h
          · subst h
            rfl
        · simp only [hover, if_false] at he
          rcases heapPush_subset bestPos best ⟨nn, sim q nn.vector⟩ e he with h | h
          · exact hbest e h
          · subst h
            rfl
      · simp only [hadm, if_false]
        exact hbest

theorem searchLayerLoop_scores {S : Type} [LinearOrder S] (sim : Vec → Vec → S)
    (g : HNSW) (q : Vec) (ℓ ef : ℕ) :
    ∀ (fuel : ℕ) (st : List ℤ × List (SC S) × List (SC S)),
    (∀ e ∈ st.2.2, e.score = sim q e.node.vector) →
    ∀ e ∈ searchLayerLoop sim g q ℓ ef fuel st, e.score = sim q e.node.vector := by
  intro fuel
  induction fuel with
  | zero =>
    intro st hbest
    exact hbest
  | succ fuel ih =>
    intro st hbest
    rcases st with ⟨visited, cands, best⟩
    rcases hpop : heapPop candPos cands with ⟨res, cands'⟩
    unfold searchLayerLoop
    dsimp only
    rw [hpop]
    rcases res with _ | current
    · exact hbest
    · dsimp only
      by_cases hstop : (match heapPeek best with
        | none => false
        | some worst => decide (ef ≤ best.length) && decide (current.score < worst.score)) = true
      · rw [if_pos hstop]
        exact hbest
      · rw [if_neg hstop]
        refine ih _ ?_
        have hfold : ∀ (nids : List ℤ) (st₀ : List ℤ × List (SC S) × List (SC S)),
            (∀ e ∈ st₀.2.2, e.score = sim q e.node.vector) →
            ∀ e ∈ (nids.foldl (slExpand sim g q ef) st₀).2.2,
              e.score = sim q e.node.vector := by
          intro nids
          induction nids with
          | nil => intro st₀ h; exact h
          | cons nid rest ihn =>
            intro st₀ h
            rw [List.foldl_cons]
            exact ihn _ (slExpand_scores sim g q ef st₀ nid h)
        exact hfold _ _ hbest

/-- The nodes returned by `searchLayer` are listed in non-strictly
descending order of their score against the query. -/
theorem searchLayer_sorted {S : Type} [LinearOrder S] (sim : Vec → Vec → S)
    (g : HNSW) (q : Vec) (entry : Node) (ℓ ef : ℕ) :
    (searchLayer sim g q entry ℓ ef).Pairwise
      fun a b => sim q b.vector ≤ sim q a.vector := by
  unfold searchLayer
  have hscores := searchLayerLoop_scores sim g q ℓ ef (totalAdj g + 2)
    ([entry.id], [⟨entry, sim q entry.vector⟩], [⟨entry, sim q entry.vector⟩])
    (by intro e he; simp only [List.mem_singleton] at he; subst he; rfl)
  have hsorted := sortDesc_sorted SC.score
    (searchLayerLoop sim g q ℓ ef (totalAdj g + 2)
      ([entry.id], [⟨entry, sim q entry.vector⟩], [⟨entry, sim q entry.vector⟩]))
  have hpw : (sortDesc SC.score
      (searchLayerLoop sim g q ℓ ef (totalAdj g + 2)
        ([entry.id], [⟨entry, sim q entry.vector⟩], [⟨entry, sim q entry.vector⟩]))).Pairwise
      fun a b => sim q b.node.vector ≤ sim q a.node.vector := by
    refine hsorted.imp_of_mem ?_
    intro a b ha hb hab
    rw [← hscores a ((sortDesc_mem _ _ a).mp ha),
      ← hscores b ((sortDesc_mem _ _ b).mp hb)]
    exact hab
  exact List.pairwise_map.mpr hpw

theorem collectK_length {S : Type} [LinearOrder S] (sim : Vec → Vec → S)
    (q : Vec) (k : ℤ) :
    ∀ (cands : List Node) (seen : List ℤ) (results : List (ℤ × S)),
    (results.length : ℤ) < k →
    ((collectK sim q k cands seen results).length : ℤ) ≤ k := by
  intro cands
  induction cands with
  | nil =>
    intro seen results h
    exact le_of_lt h
  | cons n rest ih =>
    intro seen results h
    unfold collectK
    by_cases hseen : seen.contains n.id
    · simp only [hseen, if_true]
      exact ih seen results h
    · simp only [hseen, if_false]
      by_cases hfull : ((results ++ [(n.id, sim n.vector q)]).length : ℤ) = k
      · rw [if_pos hfull]
        exact le_of_eq hfull
      · rw [if_neg hfull]
        refine ih _ _ ?_
        simp only [List.length_append, List.length_cons, List.length_nil] at hfull ⊢
        omega

theorem collectK_nodup {S : Type} [LinearOrder S] (sim : Vec → Vec → S)
    (q : Vec) (k : ℤ) :
    ∀ (cands : List Node) (seen : List ℤ) (results : List (ℤ × S)),
    (results.map Prod.fst).Nodup →
    (∀ i ∈ results.map Prod.fst, i ∈ seen) →
    ((collectK sim q k cands seen results).map Prod.fst).Nodup := by
  intro cands
  induction cands with
  | nil =>
    intro seen results hnd _
    exact hnd
  | cons n rest ih =>
    intro seen results hnd hseen
    unfold collectK
    by_cases hs : seen.contains n.id
    · simp only [hs, if_true]
      exact ih seen results hnd hseen
    · simp only [hs, if_false]
      have hnd' : ((results ++ [(n.id, sim n.vector q)]).map Prod.fst).Nodup := by
        rw [List.map_append]
        refine List.Nodup.append hnd (by simp) ?_
        intro a ha hb
        simp only [List.map_cons, List.map_nil, List.mem_singleton] at hb
        subst hb
        have hs' : n.id ∉ seen := by simpa using hs
        exact hs' (hseen _ ha)
      by_cases hfull : (((results ++ [(n.id, sim n.vector q)]).length : ℤ)) = k
      · rw [if_pos hfull]
        exact hnd'
      · rw [if_neg hfull]
        refine ih _ _ hnd' ?_
        intro i hi
        rw [List.map_append] at hi
        rcases List.mem_append.mp hi with hi | hi
        · exact List.mem_cons_of_mem _ (hseen i hi)
        · simp only [List.map_cons, List.map_nil, List.mem_singleton] at hi
          subst hi
          exact List.mem_cons_self _ _

theorem collectK_decomp {S : Type} [LinearOrder S] (sim : Vec → Vec → S)
    (q : Vec) (k : ℤ) :
    ∀ (cands : List Node) (seen : List ℤ) (results : List (ℤ × S)),
    ∃ sub : List Node, sub.Sublist cands ∧
      collectK sim q k cands seen results
        = results ++ sub.map fun n => (n.id, sim n.vector q) := by
  intro cands
  induction cands with
  | nil =>
    intro seen results
    exact ⟨[], List.Sublist.refl _, by simp [collectK]⟩
  | cons n rest ih =>
    intro seen results
    unfold collectK
    by_cases hs : seen.contains n.id
    · simp only [hs, if_true]
      rcases ih seen results with ⟨sub, hsub, heq⟩
      exact ⟨sub, hsub.trans (List.sublist_cons_self _ _), heq⟩
    · simp only [hs, if_false]
      by_cases hfull : (((results ++ [(n.id, sim n.vector q)]).length : ℤ)) = k
      · rw [if_pos hfull]
        exact ⟨[n], by simp, by simp⟩
      · rw [if_neg hfull]
        rcases ih (n.id :: seen) (results ++ [(n.id, sim n.vector q)])
          with ⟨sub, hsub, heq⟩
        refine ⟨n :: sub, List.Sublist.cons₂ n hsub, ?_⟩
        rw [heq, List.append_assoc]
        rfl

theorem collectK_snd_sorted {S : Type} [LinearOrder S] (sim : Vec → Vec → S)
    (hsym : ∀ a b, sim a b = sim b a) (q : Vec) (k : ℤ) (cands : List Node)
    (hsorted : cands.Pairwise fun a b => sim q b.vector ≤ sim q a.vector) :
    ((collectK sim q k cands [] []).map Prod.snd).Pairwise
      fun a b : S => b ≤ a := by
  rcases collectK_decomp sim q k cands [] [] with ⟨sub, hsub, heq⟩
  rw [heq, List.nil_append, List.map_map]
  refine List.pairwise_map.mpr ?_
  refine (List.Pairwise.sublist hsub hsorted).imp ?_
  intro a b hab
  simp only [Function.comp]
  rw [hsym a.vector q, hsym b.vector q]
  exact hab

/-- C5: `searchKNN` returns at most `k` results, the returned ids are
pairwise distinct, the scores are non-strictly decreasing (the two metrics
are symmetric functions, reflected by the hypothesis `hsym`), and an empty
graph or `k ≤ 0` yields the empty list. -/
theorem searchKNN_shape {S : Type} [LinearOrder S] (sim : Vec → Vec → S)
    (hsym : ∀ a b, sim a b = sim b a) (g : HNSW) (q : Vec) (k : ℤ)
    (efOpt : Option ℕ) :
    (0 < k → ((searchKNN sim g q k efOpt).length : ℤ) ≤ k)
    ∧ ((searchKNN sim g q k efOpt).map Prod.fst).Nodup
    ∧ ((searchKNN sim g q k efOpt).map Prod.snd).Pairwise (fun a b => b ≤ a)
    ∧ ((g.nodes = [] ∨ k ≤ 0) → searchKNN sim g q k efOpt = []) := by
  by_cases hguard : g.entryPointId = -1 ∨ g.nodes.length = 0 ∨ k ≤ 0
  · rw [searchKNN, if_pos hguard]
    refine ⟨fun hk => ?_, by simp, by simp, fun _ => rfl⟩
    simp only [List.length_nil, Nat.cast_zero]
    omega
  · have hk : 0 < k := by
      push_neg at hguard
      omega
    have hcase : searchKNN sim g q k efOpt
        = match mapGet g.nodes g.entryPointId with
          | none => []
          | some entry₀ =>
            collectK sim q k
              (searchLayer sim g q
                ((downRange g.levelMax 1).foldl
                  (fun e ℓ => greedySearch sim g q e ℓ.toNat) entry₀)
                0 (max k ((efOpt.getD g.efSearch : ℕ) : ℤ)).toNat)
              [] [] := by
      rw [searchKNN, if_neg hguard]
    rcases hget : mapGet g.nodes g.entryPointId with _ | entry₀ <;>
      rw [hget] at hcase <;> rw [hcase]
    · refine ⟨fun hk' => ?_, by simp, by simp, fun _ => rfl⟩
      simp only [List.length_nil, Nat.cast_zero]
      omega
    · have h0 : ((([] : List (ℤ × S)).length : ℤ)) < k := by
        simpa using hk
      have h1 : (([] : List (ℤ × S)).map Prod.fst).Nodup := by simp
      have h2 : ∀ i ∈ ([] : List (ℤ × S)).map Prod.fst, i ∈ ([] : List ℤ) := by
        simp
      refine ⟨fun _ => collectK_length sim q k _ [] [] h0,
        collectK_nodup sim q k _ [] [] h1 h2,
        collectK_snd_sorted sim hsym q k _ (searchLayer_sorted sim g q _ 0 _),
        fun h => ?_⟩
      exfalso
      push_neg at hguard
      rcases h with h | h
      · rw [h] at hguard
        exact hguard.2.1 rfl
      · omega

theorem sqDist_symm (a b : Vec) : sqDist a b = sqDist b a := by
  unfold sqDist
  induction a generalizing b with
  | nil => cases b <;> rfl
  | cons x xs ih =>
    cases b with
    | nil => rfl
    | cons y ys =>
      simp only [List.zip_cons_cons, List.map_cons, List.sum_cons]
      rw [ih ys]
      ring_nf

/-- The euclidean similarity is a symmetric function (as is the cosine:
both source metrics satisfy the `hsym` hypothesis of `searchKNN_shape`). -/
theorem euclideanSimilarity_symm (a b : Vec) :
    euclideanSimilarity a b = euclideanSimilarity b a := by
  unfold euclideanSimilarity
  rw [sqDist_symm]

unseal Rat.add Rat.sub Rat.mul Rat.inv Rat.ofScientific in
/-- C5 witness: on the concrete four-point graph, a `k = 2` query returns
at most two results, and `k = -1` returns the empty list. -/
theorem searchKNN_shape_witness :
    ((searchKNN euclideanSimilarity cexC1Graph [0, 0] 2 none).length : ℤ) ≤ 2
    ∧ searchKNN euclideanSimilarity cexC1Graph [0, 0] (-1) none = [] :=
  ⟨(searchKNN_shape euclideanSimilarity euclideanSimilarity_symm cexC1Graph
      [0, 0] 2 none).1 (by decide),
    (searchKNN_shape euclideanSimilarity euclideanSimilarity_symm cexC1Graph
      [0, 0] (-1) none).2.2.2 (Or.inr (by decide))⟩

/-! ## Claim C10: `searchKNN` does not mutate the index -/

/-- C10: the state-passing embedding of `searchKNN` returns the graph
unchanged — node map, adjacency, entry point, `levelMax`, `d` and all
configuration fields — while computing exactly the `searchKNN` results
(the source method contains no assignment to `this` or to any node). -/
theorem searchKNN_no_mutation {S : Type} [LinearOrder S] (sim : Vec → Vec → S)
    (g : HNSW) (q : Vec) (k : ℤ) (efOpt : Option ℕ) :
    (searchKNNState sim g q k efOpt).2 = g
    ∧ (searchKNNState sim g q k efOpt).1 = searchKNN sim g q k efOpt := by
  unfold searchKNNState searchKNN
  split
  · exact ⟨rfl, rfl⟩
  · split <;> exact ⟨rfl, rfl⟩

end Hnsw
